import Mathlib

/-!
Verification development for the tiered memory accounting and eviction engine
of `dask_cuda/proxify_host_file.py`.

Modelling conventions:
* Python object identity `id(x)` is modelled by a natural-number identity
  carried by each proxy (`ProxyObject.pid`) and by each device buffer
  (a `Nat` buffer identity).
* Python `dict` is modelled by an insertion-ordered association list
  (`List (Nat × α)`) with lookup/update/delete helpers below; Python `set`
  is modelled by an insertion-ordered duplicate-free list manipulated with
  add-if-absent and erase.
* The external sizing collaborator `dask.sizeof.sizeof` is modelled by two
  explicit function parameters: `szBuf : Nat → Nat` giving the size of a
  device buffer by its identity, and `szProxy : Nat → Nat` giving the size
  of a (host- or disk-resident) proxy by its identity.
* Weak references: a registry stores the proxy keyed by its identity; the
  external garbage collector is modelled by a predicate `alive : Nat → Bool`
  telling whether the weak reference of a given proxy identity still
  resolves.  `get_proxies` filters by it.
* Python assertion failures and `KeyError` are modelled by `Option`:
  an operation returns `none` exactly when the source raises.
* The time stamps `last_access` (Python monotonic floats) are modelled by
  naturals; only their ordering matters to the engine.
* The external serialization machinery of `ProxyObject` (the demotion
  callbacks passed to `evict`) is modelled by an abstract state-transformer
  parameter; `evict` is polymorphic in the state the callback acts on.
-/

/-- A proxy handle: identity, the identities of the device buffers it
references (`_pxy_get_device_memory_objects`), its last-access time stamp
and its current serializer tag. -/
structure ProxyObject where
  pid : Nat
  devMems : List Nat
  lastAccess : Nat
  serializer : Option String
deriving DecidableEq

/-- Association-list lookup, first binding of the key (Python `dict.get`). -/
def lookupA {α : Type} : List (Nat × α) → Nat → Option α
  | [], _ => none
  | (k, v) :: rest, key => if k = key then some v else lookupA rest key

/-- Association-list update: overwrite the binding in place if the key is
present, append it otherwise (Python `dict.__setitem__`). -/
def setA {α : Type} : List (Nat × α) → Nat → α → List (Nat × α)
  | [], key, v => [(key, v)]
  | (k, w) :: rest, key, v =>
    if k = key then (key, v) :: rest else (k, w) :: setA rest key v

/-- Association-list deletion of the first binding of a key
(Python `dict.__delitem__` / `dict.pop`). -/
def eraseA {α : Type} : List (Nat × α) → Nat → List (Nat × α)
  | [], _ => []
  | (k, w) :: rest, key =>
    if k = key then rest else (k, w) :: eraseA rest key

/-- The keys of an association list, in order. -/
def keysOf {α : Type} (m : List (Nat × α)) : List Nat := m.map (·.1)

/-- State of `ProxiesOnHost` (also used for `ProxiesOnDisk`, whose behaviour
is identical): the `_proxy_id_to_proxy` dict of the abstract base class
`Proxies` plus the `_mem_usage` tally. -/
structure ProxiesOnHost where
  proxy_id_to_proxy : List (Nat × ProxyObject)
  mem_usage : Int
deriving DecidableEq

/-- The empty registry (the `Proxies.__init__` state). -/
def ProxiesOnHost.init : ProxiesOnHost := ⟨[], 0⟩

/-- `Proxies.contains_proxy_id`. -/
def ProxiesOnHost.contains_proxy_id (s : ProxiesOnHost) (pid : Nat) : Bool :=
  (lookupA s.proxy_id_to_proxy pid).isSome

/-- `Proxies.get_proxies`: resolve the weak references, silently skipping the
dead ones. -/
def ProxiesOnHost.get_proxies (alive : Nat → Bool) (s : ProxiesOnHost) :
    List ProxyObject :=
  (s.proxy_id_to_proxy.filter (fun kv => alive kv.1)).map (·.2)

/-- `Proxies.add` for the host/disk variant: assert the identity is not yet
tracked, record it, then `ProxiesOnHost.mem_usage_add`
(`self._mem_usage += sizeof(proxy)`). -/
def ProxiesOnHost.add (szProxy : Nat → Nat) (s : ProxiesOnHost)
    (p : ProxyObject) : Option ProxiesOnHost :=
  if s.contains_proxy_id p.pid then none
  else some { proxy_id_to_proxy := s.proxy_id_to_proxy ++ [(p.pid, p)],
              mem_usage := s.mem_usage + (szProxy p.pid : Int) }

/-- `Proxies.remove` for the host/disk variant: delete the tracked reference
(`KeyError`, i.e. `none`, if absent), run `mem_usage_remove`
(`self._mem_usage -= sizeof(proxy)`), then the emptiness check: if the
registry became empty and the tally is non-zero, warn and reset it to 0.
The returned `Bool` records whether the warning was emitted. -/
def ProxiesOnHost.remove (szProxy : Nat → Nat) (s : ProxiesOnHost)
    (p : ProxyObject) : Option (ProxiesOnHost × Bool) :=
  if s.contains_proxy_id p.pid then
    let tracked := eraseA s.proxy_id_to_proxy p.pid
    let mem : Int := s.mem_usage - (szProxy p.pid : Int)
    if tracked.length = 0 ∧ mem ≠ 0 then
      some ({ proxy_id_to_proxy := tracked, mem_usage := 0 }, true)
    else
      some ({ proxy_id_to_proxy := tracked, mem_usage := mem }, false)
  else none

/-- State of `ProxiesOnDevice`: the base-class dict and tally plus the two
aliasing maps `proxy_id_to_dev_mems` and `dev_mem_to_proxy_ids`. -/
structure ProxiesOnDevice where
  proxy_id_to_proxy : List (Nat × ProxyObject)
  mem_usage : Int
  proxy_id_to_dev_mems : List (Nat × List Nat)
  dev_mem_to_proxy_ids : List (Nat × List Nat)
deriving DecidableEq

/-- The empty device registry. -/
def ProxiesOnDevice.init : ProxiesOnDevice := ⟨[], 0, [], []⟩

/-- `Proxies.contains_proxy_id` for the device registry. -/
def ProxiesOnDevice.contains_proxy_id (s : ProxiesOnDevice) (pid : Nat) : Bool :=
  (lookupA s.proxy_id_to_proxy pid).isSome

/-- `Proxies.get_proxies` for the device registry. -/
def ProxiesOnDevice.get_proxies (alive : Nat → Bool) (s : ProxiesOnDevice) :
    List ProxyObject :=
  (s.proxy_id_to_proxy.filter (fun kv => alive kv.1)).map (·.2)

/-- One iteration of the loop of `ProxiesOnDevice.mem_usage_add` for a single
device buffer `dev_mem`: record it in the proxy's buffer set, and if its
reference count goes 0 → 1 (`len(ps) == 0`), add its size to the tally;
finally add the proxy id to the buffer's referencing set. -/
def devMemAddStep (szBuf : Nat → Nat) (pid : Nat) (s : ProxiesOnDevice)
    (dev_mem : Nat) : ProxiesOnDevice :=
  let mems := (lookupA s.proxy_id_to_dev_mems pid).getD []
  let mems2 := if dev_mem ∈ mems then mems else mems ++ [dev_mem]
  let s1 := { s with proxy_id_to_dev_mems := setA s.proxy_id_to_dev_mems pid mems2 }
  let ps := (lookupA s1.dev_mem_to_proxy_ids dev_mem).getD []
  let mem2 := if ps.length = 0 then s1.mem_usage + (szBuf dev_mem : Int)
              else s1.mem_usage
  let ps2 := if pid ∈ ps then ps else ps ++ [pid]
  { s1 with mem_usage := mem2,
            dev_mem_to_proxy_ids := setA s1.dev_mem_to_proxy_ids dev_mem ps2 }

/-- `ProxiesOnDevice.mem_usage_add`: assert the proxy id has no buffer set
yet, create its empty set, then process every referenced buffer. -/
def ProxiesOnDevice.mem_usage_add (szBuf : Nat → Nat) (s : ProxiesOnDevice)
    (p : ProxyObject) : Option ProxiesOnDevice :=
  if (lookupA s.proxy_id_to_dev_mems p.pid).isSome then none
  else some (p.devMems.foldl (devMemAddStep szBuf p.pid)
      { s with proxy_id_to_dev_mems := s.proxy_id_to_dev_mems ++ [(p.pid, [])] })

/-- One iteration of the loop of `ProxiesOnDevice.mem_usage_remove` for a
single device buffer: drop the proxy id from the buffer's referencing set
(`set.remove` raises, i.e. `none`, when absent); when the set becomes empty
(ref-count 1 → 0) delete the entry and subtract the buffer's size. -/
def devMemRemoveStep (szBuf : Nat → Nat) (pid : Nat) (s : ProxiesOnDevice)
    (dev_mem : Nat) : Option ProxiesOnDevice :=
  let ps := (lookupA s.dev_mem_to_proxy_ids dev_mem).getD []
  if pid ∈ ps then
    let ps2 := ps.erase pid
    if ps2.length = 0 then
      some { s with dev_mem_to_proxy_ids := eraseA s.dev_mem_to_proxy_ids dev_mem,
                    mem_usage := s.mem_usage - (szBuf dev_mem : Int) }
    else
      some { s with dev_mem_to_proxy_ids := setA s.dev_mem_to_proxy_ids dev_mem ps2 }
  else none

/-- `ProxiesOnDevice.mem_usage_remove`: pop the proxy's recorded buffer set
(`KeyError`, i.e. `none`, if absent) and process every buffer in it. -/
def ProxiesOnDevice.mem_usage_remove (szBuf : Nat → Nat) (s : ProxiesOnDevice)
    (p : ProxyObject) : Option ProxiesOnDevice := do
  let mems ← lookupA s.proxy_id_to_dev_mems p.pid
  let s1 := { s with proxy_id_to_dev_mems := eraseA s.proxy_id_to_dev_mems p.pid }
  mems.foldlM (devMemRemoveStep szBuf p.pid) s1

/-- `Proxies.add` for the device variant: assert untracked, record the weak
reference, then `mem_usage_add`. -/
def ProxiesOnDevice.add (szBuf : Nat → Nat) (s : ProxiesOnDevice)
    (p : ProxyObject) : Option ProxiesOnDevice :=
  if s.contains_proxy_id p.pid then none
  else ProxiesOnDevice.mem_usage_add szBuf
    { s with proxy_id_to_proxy := s.proxy_id_to_proxy ++ [(p.pid, p)] } p

/-- `Proxies.remove` for the device variant, including the emptiness check of
the base class (warn and reset a non-zero tally when the registry empties).
The returned `Bool` records whether the warning was emitted. -/
def ProxiesOnDevice.remove (szBuf : Nat → Nat) (s : ProxiesOnDevice)
    (p : ProxyObject) : Option (ProxiesOnDevice × Bool) := do
  if s.contains_proxy_id p.pid then
    let s1 := { s with proxy_id_to_proxy := eraseA s.proxy_id_to_proxy p.pid }
    let s2 ← ProxiesOnDevice.mem_usage_remove szBuf s1 p
    if s2.proxy_id_to_proxy.length = 0 ∧ s2.mem_usage ≠ 0 then
      some ({ s2 with mem_usage := 0 }, true)
    else
      some (s2, false)
  else none

/-- One add or remove operation on the device tier registry. -/
inductive DevOp where
  | add (p : ProxyObject)
  | remove (p : ProxyObject)

/-- Run a sequence of add/remove operations on a device registry; `none` as
soon as one of them raises. -/
def runDevOps (szBuf : Nat → Nat) : ProxiesOnDevice → List DevOp →
    Option ProxiesOnDevice
  | s, [] => some s
  | s, DevOp.add p :: rest => do
      let s2 ← s.add szBuf p
      runDevOps szBuf s2 rest
  | s, DevOp.remove p :: rest => do
      let r ← s.remove szBuf p
      runDevOps szBuf r.1 rest

/-- The three tier registries owned by a `ProxyManager`. -/
inductive Tier where
  | disk
  | host
  | dev
deriving DecidableEq

/-- `ProxyManager` state: the three registries and the two limits. -/
structure ProxyManager where
  disk : ProxiesOnHost
  host : ProxiesOnHost
  dev : ProxiesOnDevice
  device_memory_limit : Int
  host_memory_limit : Int
deriving DecidableEq

/-- `ProxyManager.get_proxies_by_serializer`: `"disk"` selects the disk
registry, `"dask"`/`"pickle"` the host registry, anything else (including
`None`) the device registry. -/
def ProxyManager.get_proxies_by_serializer (sr : Option String) : Tier :=
  if sr = some "disk" then Tier.disk
  else if sr = some "dask" ∨ sr = some "pickle" then Tier.host
  else Tier.dev

/-- `ProxyManager.get_proxies_by_proxy_object`: scan device, host, then disk
for the proxy's identity. -/
def ProxyManager.get_proxies_by_proxy_object (m : ProxyManager)
    (p : ProxyObject) : Option Tier :=
  if m.dev.contains_proxy_id p.pid then some Tier.dev
  else if m.host.contains_proxy_id p.pid then some Tier.host
  else if m.disk.contains_proxy_id p.pid then some Tier.disk
  else none

/-- `ProxyManager.contains`. -/
def ProxyManager.contains (m : ProxyManager) (pid : Nat) : Bool :=
  m.disk.contains_proxy_id pid || m.host.contains_proxy_id pid
    || m.dev.contains_proxy_id pid

/-- `ProxyManager.add`: if the registry selected by the serializer differs
from the registry currently holding the proxy, remove from the old one (when
there is one) and add to the new one; otherwise do nothing. -/
def ProxyManager.add (szProxy szBuf : Nat → Nat) (m : ProxyManager)
    (p : ProxyObject) (sr : Option String) : Option ProxyManager :=
  let old := m.get_proxies_by_proxy_object p
  let new := ProxyManager.get_proxies_by_serializer sr
  if old = some new then some m
  else do
    let m1 ← match old with
      | none => some m
      | some Tier.disk => do
          let r ← m.disk.remove szProxy p
          some { m with disk := r.1 }
      | some Tier.host => do
          let r ← m.host.remove szProxy p
          some { m with host := r.1 }
      | some Tier.dev => do
          let r ← m.dev.remove szBuf p
          some { m with dev := r.1 }
    match new with
    | Tier.disk => do
        let d ← m1.disk.add szProxy p
        some { m1 with disk := d }
    | Tier.host => do
        let h ← m1.host.add szProxy p
        some { m1 with host := h }
    | Tier.dev => do
        let d ← m1.dev.add szBuf p
        some { m1 with dev := d }

/-- `ProxyManager.remove`: locate the proxy, asserting (`none`) when it is
found in more than one registry or in none, then remove it from the registry
holding it. -/
def ProxyManager.remove (szProxy szBuf : Nat → Nat) (m : ProxyManager)
    (p : ProxyObject) : Option ProxyManager :=
  let inDisk := m.disk.contains_proxy_id p.pid
  let inHost := m.host.contains_proxy_id p.pid
  let inDev := m.dev.contains_proxy_id p.pid
  if inHost ∧ inDisk then none
  else if inDev ∧ (inDisk ∨ inHost) then none
  else if inDisk then do
    let r ← m.disk.remove szProxy p
    some { m with disk := r.1 }
  else if inHost then do
    let r ← m.host.remove szProxy p
    some { m with host := r.1 }
  else if inDev then do
    let r ← m.dev.remove szBuf p
    some { m with dev := r.1 }
  else none

/-- A snapshot entry `(access-time, size-of-buffer, list-of-proxies)`. -/
abbrev AccessEntry := Nat × Nat × List ProxyObject

/-- The sort key of `evict`: Python's
`access.sort(key=lambda x: (x[0], -x[1]))`, i.e. ascending access time with
ties broken by descending size. -/
def accessLE (e1 e2 : AccessEntry) : Bool :=
  decide (e1.1 < e2.1 ∨ (e1.1 = e2.1 ∧ e2.2.1 ≤ e1.2.1))

/-- The stable sort performed by `evict` on the snapshot. -/
def sortAccess (access : List AccessEntry) : List AccessEntry :=
  access.mergeSort accessLE

/-- The accumulation loop of `evict`: walk the sorted snapshot, adding each
entry's size to `freed` and collecting its proxies, and break as soon as
`freed >= nbytes`.  Returns the final `freed` and the collected proxies. -/
def evictLoop (nbytes : Int) : Nat → List AccessEntry → Nat × List ProxyObject
  | freed, [] => (freed, [])
  | freed, (_, size, proxies) :: rest =>
    let freed2 := freed + size
    if nbytes ≤ (freed2 : Int) then (freed2, proxies)
    else
      let r := evictLoop nbytes freed2 rest
      (r.1, proxies ++ r.2)

/-- The deduplication of `evict`: keep the first occurrence of every proxy
identity (the `serialized_proxies` id set), dropping later ones. -/
def dedupProxies : List ProxyObject → List Nat → List ProxyObject
  | [], _ => []
  | p :: rest, seen =>
    if p.pid ∈ seen then dedupProxies rest seen
    else p :: dedupProxies rest (p.pid :: seen)

/-- `ProxyManager.evict`: sort the snapshot obtained from `proxies_access`,
accumulate entries until at least `nbytes` is covered, then call the
demotion callback once per distinct collected proxy identity, in collection
order.  The callback acts on an abstract state `σ` standing for the mutable
world (the manager together with the proxies); the source's
`proxies_access` and `serializer` arguments are likewise functions of that
state.  Returns the updated state and the number of bytes counted as
freed. -/
def ProxyManager.evict {σ : Type} (st : σ) (nbytes : Int)
    (proxies_access : σ → List AccessEntry)
    (serializerFn : σ → ProxyObject → σ) : σ × Nat :=
  let r := evictLoop nbytes 0 (sortAccess (proxies_access st))
  ((dedupProxies r.2 []).foldl serializerFn st, r.1)

/-- Update one buffer's proxy list inside the `buffer_to_proxies` map of
`get_dev_access_info` (`defaultdict(list)` append). -/
def appendToEntry (m : List (Nat × List ProxyObject)) (b : Nat)
    (p : ProxyObject) : List (Nat × List ProxyObject) :=
  setA m b ((lookupA m b).getD [] ++ [p])

/-- The `buffer_to_proxies` map of `get_dev_access_info`: iterate the live
device proxies and, for each buffer each of them references, append the
proxy to that buffer's list. -/
def buffer_to_proxies (proxies : List ProxyObject) :
    List (Nat × List ProxyObject) :=
  proxies.foldl (fun acc p => p.devMems.foldl (fun a b => appendToEntry a b p) acc) []

/-- Maximum of a list of naturals (Python `max` over a non-empty list). -/
def listMax (l : List Nat) : Nat := l.foldl max 0

/-- `ProxyManager.get_dev_access_info`: one entry per distinct device buffer
referenced by a live device-resident proxy, carrying the maximum last-access
time over the proxies sharing the buffer, the buffer's externally-reported
size, and those proxies. -/
def ProxyManager.get_dev_access_info (szBuf : Nat → Nat) (alive : Nat → Bool)
    (m : ProxyManager) : List AccessEntry :=
  (buffer_to_proxies (m.dev.get_proxies alive)).map
    (fun bp => (listMax (bp.2.map (·.lastAccess)), szBuf bp.1, bp.2))

/-- `ProxyManager.get_host_access_info`: one entry per live host-resident
proxy. -/
def ProxyManager.get_host_access_info (szProxy : Nat → Nat)
    (alive : Nat → Bool) (m : ProxyManager) : List AccessEntry :=
  (m.host.get_proxies alive).map (fun p => (p.lastAccess, szProxy p.pid, [p]))

/-- A record of one `evict` invocation made by the `maybe_evict` family:
which tier's snapshot was used and the requested byte count. -/
structure EvictCall where
  tier : Tier
  nbytes : Int
deriving DecidableEq

/-- `ProxyManager.maybe_evict_from_device`: when current device usage plus
`extra_dev_mem` strictly exceeds the device limit, evict exactly the overage
using the device snapshot and the device demotion callback (the external
`p._pxy_serialize(serializers=("dask", "pickle"))`, abstracted as
`demote`).  Also returns the list of `evict` invocations made. -/
def ProxyManager.maybe_evict_from_device (szBuf : Nat → Nat)
    (alive : Nat → Bool) (demote : ProxyManager → ProxyObject → ProxyManager)
    (m : ProxyManager) (extra_dev_mem : Int) : ProxyManager × List EvictCall :=
  let mem_over_usage := m.dev.mem_usage + extra_dev_mem - m.device_memory_limit
  if 0 < mem_over_usage then
    ((ProxyManager.evict m mem_over_usage
        (ProxyManager.get_dev_access_info szBuf alive) demote).1,
     [⟨Tier.dev, mem_over_usage⟩])
  else (m, [])

/-- `ProxyManager.maybe_evict_from_host`: the analogous check against the
host limit, demoting to disk via the external
`ProxifyHostFile.serialize_proxy_to_disk_inplace`, abstracted as
`demote`. -/
def ProxyManager.maybe_evict_from_host (szProxy : Nat → Nat)
    (alive : Nat → Bool) (demote : ProxyManager → ProxyObject → ProxyManager)
    (m : ProxyManager) (extra_host_mem : Int) : ProxyManager × List EvictCall :=
  let mem_over_usage := m.host.mem_usage + extra_host_mem - m.host_memory_limit
  if 0 < mem_over_usage then
    ((ProxyManager.evict m mem_over_usage
        (ProxyManager.get_host_access_info szProxy alive) demote).1,
     [⟨Tier.host, mem_over_usage⟩])
  else (m, [])

/-- `ProxyManager.maybe_evict`: the device check first, then the host check
on the resulting state. -/
def ProxyManager.maybe_evict (szProxy szBuf : Nat → Nat) (alive : Nat → Bool)
    (demoteDev demoteHost : ProxyManager → ProxyObject → ProxyManager)
    (m : ProxyManager) (extra_dev_mem : Int) : ProxyManager × List EvictCall :=
  let r1 := ProxyManager.maybe_evict_from_device szBuf alive demoteDev m extra_dev_mem
  let r2 := ProxyManager.maybe_evict_from_host szProxy alive demoteHost r1.1 0
  (r2.1, r1.2 ++ r2.2)

/-- The registration loop of `ProxyManager.proxify`: stamp each discovered
proxy's last access to `now` and register the ones not yet tracked into the
registry matching their serializer tag. -/
def proxifyLoop (szProxy szBuf : Nat → Nat) (now : Nat) :
    ProxyManager → List ProxyObject → Option (ProxyManager × List ProxyObject)
  | m, [] => some (m, [])
  | m, p :: rest => do
    let p2 := { p with lastAccess := now }
    let m2 ← if m.contains p2.pid then some m
             else m.add szProxy szBuf p2 p2.serializer
    let r ← proxifyLoop szProxy szBuf now m2 rest
    some (r.1, p2 :: r.2)

/-- `ProxyManager.proxify`: the external discovery collaborator
(`proxify_device_objects`) is modelled by taking the value to be exactly its
list of discovered proxies; register them, then run `maybe_evict`. -/
def ProxyManager.proxify (szProxy szBuf : Nat → Nat) (alive : Nat → Bool)
    (demoteDev demoteHost : ProxyManager → ProxyObject → ProxyManager)
    (m : ProxyManager) (found_proxies : List ProxyObject) (now : Nat) :
    Option (ProxyManager × List ProxyObject) := do
  let r ← proxifyLoop szProxy szBuf now m found_proxies
  some ((ProxyManager.maybe_evict szProxy szBuf alive demoteDev demoteHost r.1 0).1,
        r.2)

/-- `ProxifyHostFile` state: the key/value store and the manager.  Values
are modelled by their lists of proxies (see `ProxyManager.proxify`). -/
structure ProxifyHostFile where
  store : List (Nat × List ProxyObject)
  manager : ProxyManager
deriving DecidableEq

/-- `ProxifyHostFile.__delitem__`: delete the store entry (`KeyError`, i.e.
`none`, when the key is absent).  It does not touch the registries. -/
def ProxifyHostFile.delitem (f : ProxifyHostFile) (key : Nat) :
    Option ProxifyHostFile :=
  if (lookupA f.store key).isSome then
    some { f with store := eraseA f.store key }
  else none

/-- `ProxifyHostFile.__setitem__`: when the key already exists, `del
self[key]` first; then store the proxified value. -/
def ProxifyHostFile.setitem (szProxy szBuf : Nat → Nat) (alive : Nat → Bool)
    (demoteDev demoteHost : ProxyManager → ProxyObject → ProxyManager)
    (f : ProxifyHostFile) (key : Nat) (value : List ProxyObject) (now : Nat) :
    Option ProxifyHostFile := do
  let f1 ← if (lookupA f.store key).isSome then f.delitem key else some f
  let r ← f1.manager.proxify szProxy szBuf alive demoteDev demoteHost value now
  some { store := setA f1.store key r.2, manager := r.1 }

/-- First-occurrence deduplication of a list of identities, keeping insertion
order and skipping anything already in `seen` (Python set-accumulation
order). -/
def dedupKeep : List Nat → List Nat → List Nat
  | [], _ => []
  | b :: rest, seen =>
    if b ∈ seen then dedupKeep rest seen else b :: dedupKeep rest (b :: seen)

/-- The buffers of `p` that are new to the device registry `s` (reference
count 0 → 1 when `p` is added), in first-occurrence order. -/
def newDevBufs (s : ProxiesOnDevice) (p : ProxyObject) : List Nat :=
  dedupKeep (p.devMems.filter (fun b => !decide (b ∈ keysOf s.dev_mem_to_proxy_ids))) []

/-- The intermediate state of the loop of `ProxiesOnDevice.mem_usage_add`
after the prefix `done` of the proxy's buffers has been processed, starting
from a state `s` in which the proxy's identity is completely fresh but its
(empty) buffer set has not yet been created. -/
def devAddMid (szBuf : Nat → Nat) (s : ProxiesOnDevice) (pid : Nat)
    (done : List Nat) : ProxiesOnDevice :=
  { proxy_id_to_proxy := s.proxy_id_to_proxy,
    mem_usage := s.mem_usage +
      ((dedupKeep (done.filter (fun b => !decide (b ∈ keysOf s.dev_mem_to_proxy_ids))) []).map
        (fun b => (szBuf b : Int))).sum,
    proxy_id_to_dev_mems := s.proxy_id_to_dev_mems ++ [(pid, dedupKeep done [])],
    dev_mem_to_proxy_ids :=
      s.dev_mem_to_proxy_ids.map
        (fun bp => (bp.1, if bp.1 ∈ done then bp.2 ++ [pid] else bp.2))
        ++ (dedupKeep (done.filter (fun b => !decide (b ∈ keysOf s.dev_mem_to_proxy_ids))) []).map
            (fun b => (b, [pid])) }

/-- The fate of one `dev_mem_to_proxy_ids` entry during
`ProxiesOnDevice.mem_usage_remove` of proxy `pid`, after the prefix `done`
of the proxy's recorded buffers has been processed: processed entries lose
`pid` and disappear when that empties them. -/
def devRemoveEntry (pid : Nat) (done : List Nat) (bp : Nat × List Nat) :
    Option (Nat × List Nat) :=
  if bp.1 ∈ done then
    (if bp.2.erase pid = [] then none else some (bp.1, bp.2.erase pid))
  else some bp

/-- The intermediate state of the loop of `ProxiesOnDevice.mem_usage_remove`
after the prefix `done` of the proxy's recorded buffers has been processed,
starting from a state `s` from which the proxy's buffer set has already been
popped. -/
def devRemoveMid (szBuf : Nat → Nat) (s : ProxiesOnDevice) (pid : Nat)
    (done : List Nat) : ProxiesOnDevice :=
  { proxy_id_to_proxy := s.proxy_id_to_proxy,
    proxy_id_to_dev_mems := s.proxy_id_to_dev_mems,
    dev_mem_to_proxy_ids := s.dev_mem_to_proxy_ids.filterMap (devRemoveEntry pid done),
    mem_usage := s.mem_usage -
      ((s.dev_mem_to_proxy_ids.filter
          (fun bp => decide (bp.1 ∈ done) && (bp.2.erase pid).isEmpty)).map
        (fun bp => (szBuf bp.1 : Int))).sum }

/-- Internal consistency of a device registry, as maintained by its add and
remove operations.  `proxy_id_to_dev_mems` mirrors the tracked proxies'
buffer sets, `dev_mem_to_proxy_ids` is its exact inverse relation with no
empty entries, and the tally equals the sum of the sizes of the distinct
buffers currently referenced. -/
structure DevInv (szBuf : Nat → Nat) (s : ProxiesOnDevice) : Prop where
  ppKeys : keysOf s.proxy_id_to_proxy = keysOf s.proxy_id_to_dev_mems
  ptmNodup : (keysOf s.proxy_id_to_dev_mems).Nodup
  dtpNodup : (keysOf s.dev_mem_to_proxy_ids).Nodup
  memsNodup : ∀ pid mems, (pid, mems) ∈ s.proxy_id_to_dev_mems → mems.Nodup
  psNodup : ∀ b ps, (b, ps) ∈ s.dev_mem_to_proxy_ids → ps.Nodup
  psNonempty : ∀ b ps, (b, ps) ∈ s.dev_mem_to_proxy_ids → ps ≠ []
  psSub : ∀ b ps pid, (b, ps) ∈ s.dev_mem_to_proxy_ids → pid ∈ ps →
    ∃ mems, (pid, mems) ∈ s.proxy_id_to_dev_mems ∧ b ∈ mems
  memsSub : ∀ pid mems b, (pid, mems) ∈ s.proxy_id_to_dev_mems → b ∈ mems →
    ∃ ps, (b, ps) ∈ s.dev_mem_to_proxy_ids ∧ pid ∈ ps
  usage : s.mem_usage
    = ((keysOf s.dev_mem_to_proxy_ids).map (fun b => (szBuf b : Int))).sum
  proxyMems : ∀ pid p, (pid, p) ∈ s.proxy_id_to_proxy →
    ∃ mems, (pid, mems) ∈ s.proxy_id_to_dev_mems ∧ ∀ b, b ∈ mems ↔ b ∈ p.devMems

/-- Membership of a proxy in the entry of buffer `b` of a
`buffer_to_proxies` map. -/
def memEntry (m : List (Nat × List ProxyObject)) (b : Nat) (q : ProxyObject) :
    Prop :=
  ∃ l, lookupA m b = some l ∧ q ∈ l

/-! ## Association-list lemmas -/

theorem keysOf_nil {α : Type} : keysOf ([] : List (Nat × α)) = [] := rfl

theorem keysOf_cons {α : Type} (kv : Nat × α) (rest : List (Nat × α)) :
    keysOf (kv :: rest) = kv.1 :: keysOf rest := rfl

theorem keysOf_append {α : Type} (l r : List (Nat × α)) :
    keysOf (l ++ r) = keysOf l ++ keysOf r := by
  simp [keysOf]

theorem keysOf_map_val {α β : Type} (f : Nat → α → β) (m : List (Nat × α)) :
    keysOf (m.map (fun bp => (bp.1, f bp.1 bp.2))) = keysOf m := by
  induction m with
  | nil => rfl
  | cons kv rest ih => simp [keysOf_cons, ih]

theorem mem_keysOf {α : Type} {m : List (Nat × α)} {kv : Nat × α}
    (h : kv ∈ m) : kv.1 ∈ keysOf m := List.mem_map_of_mem Prod.fst h

theorem mem_keysOf_iff {α : Type} {m : List (Nat × α)} {k : Nat} :
    k ∈ keysOf m ↔ ∃ v, (k, v) ∈ m := by
  constructor
  · intro h
    rcases List.mem_map.mp h with ⟨kv, hkv, hk⟩
    exact ⟨kv.2, by rwa [show (k, kv.2) = kv from by rw [← hk]]⟩
  · rintro ⟨v, hv⟩
    exact mem_keysOf hv

theorem lookupA_isSome_iff {α : Type} (m : List (Nat × α)) (k : Nat) :
    (lookupA m k).isSome = true ↔ k ∈ keysOf m := by
  induction m with
  | nil => simp [lookupA, keysOf_nil]
  | cons kv rest ih =>
    obtain ⟨k', v⟩ := kv
    rw [keysOf_cons]
    by_cases h : k' = k
    · subst h
      simp [lookupA]
    · simp only [lookupA, if_neg h, List.mem_cons, ih]
      constructor
      · intro hmem
        exact Or.inr hmem
      · rintro (rfl | hmem)
        · exact absurd rfl h
        · exact hmem

theorem lookupA_eq_none_iff {α : Type} (m : List (Nat × α)) (k : Nat) :
    lookupA m k = none ↔ k ∉ keysOf m := by
  rw [← lookupA_isSome_iff]
  cases lookupA m k <;> simp

theorem lookupA_mem {α : Type} {m : List (Nat × α)} {k : Nat} {v : α}
    (h : lookupA m k = some v) : (k, v) ∈ m := by
  induction m with
  | nil => simp [lookupA] at h
  | cons kv rest ih =>
    obtain ⟨k', v'⟩ := kv
    by_cases hk : k' = k
    · subst hk
      simp [lookupA] at h
      simp [h]
    · simp [lookupA, hk] at h
      simp [ih h]

theorem mem_lookupA {α : Type} {m : List (Nat × α)} {k : Nat} {v : α}
    (hnd : (keysOf m).Nodup) (h : (k, v) ∈ m) : lookupA m k = some v := by
  induction m with
  | nil => simp at h
  | cons kv rest ih =>
    obtain ⟨k', v'⟩ := kv
    rw [keysOf_cons] at hnd
    have hnd1 := List.nodup_cons.mp hnd
    rcases List.mem_cons.mp h with h1 | h1
    · cases h1
      simp [lookupA]
    · have hk : k' ≠ k := by
        rintro rfl
        have h2 : (k', v).1 ∈ keysOf rest := mem_keysOf h1
        exact hnd1.1 h2
      simp only [lookupA, if_neg hk]
      exact ih hnd1.2 h1

theorem lookupA_append_left {α : Type} {l : List (Nat × α)} (r : List (Nat × α))
    {k : Nat} {v : α} (h : lookupA l k = some v) : lookupA (l ++ r) k = some v := by
  induction l with
  | nil => simp [lookupA] at h
  | cons kv rest ih =>
    obtain ⟨k', v'⟩ := kv
    by_cases hk : k' = k <;> simp_all [lookupA]

theorem lookupA_append_right {α : Type} {l : List (Nat × α)} (r : List (Nat × α))
    {k : Nat} (h : k ∉ keysOf l) : lookupA (l ++ r) k = lookupA r k := by
  induction l with
  | nil => simp
  | cons kv rest ih =>
    obtain ⟨k', v'⟩ := kv
    rw [keysOf_cons] at h
    simp only [List.mem_cons, not_or] at h
    have : k' ≠ k := fun hh => h.1 hh.symm
    simp only [List.cons_append, lookupA, if_neg this]
    exact ih h.2

theorem lookupA_setA_self {α : Type} (m : List (Nat × α)) (k : Nat) (v : α) :
    lookupA (setA m k v) k = some v := by
  induction m with
  | nil => simp [setA, lookupA]
  | cons kv rest ih =>
    obtain ⟨k', v'⟩ := kv
    by_cases hk : k' = k <;> simp [setA, lookupA, hk, ih]

theorem lookupA_setA_ne {α : Type} (m : List (Nat × α)) {k k' : Nat} (v : α)
    (h : k' ≠ k) : lookupA (setA m k v) k' = lookupA m k' := by
  induction m with
  | nil => simp [setA, lookupA, Ne.symm h]
  | cons kv rest ih =>
    obtain ⟨k0, v0⟩ := kv
    by_cases hk : k0 = k
    · subst hk
      simp [setA, lookupA, Ne.symm h]
    · simp [setA, lookupA, hk, ih]

theorem setA_of_notMem {α : Type} {m : List (Nat × α)} {k : Nat} (v : α)
    (h : k ∉ keysOf m) : setA m k v = m ++ [(k, v)] := by
  induction m with
  | nil => simp [setA]
  | cons kv rest ih =>
    obtain ⟨k', v'⟩ := kv
    rw [keysOf_cons] at h
    simp only [List.mem_cons, not_or] at h
    have : k' ≠ k := fun hh => h.1 hh.symm
    simp only [setA, if_neg this, List.cons_append, List.cons.injEq, true_and]
    exact ih h.2

theorem setA_append_right {α : Type} {l : List (Nat × α)} (r : List (Nat × α))
    {k : Nat} (v : α) (h : k ∉ keysOf l) :
    setA (l ++ r) k v = l ++ setA r k v := by
  induction l with
  | nil => simp
  | cons kv rest ih =>
    obtain ⟨k', v'⟩ := kv
    rw [keysOf_cons] at h
    simp only [List.mem_cons, not_or] at h
    have : k' ≠ k := fun hh => h.1 hh.symm
    simp only [List.cons_append, setA, if_neg this, List.cons.injEq, true_and]
    exact ih h.2

theorem keysOf_setA {α : Type} (m : List (Nat × α)) (k : Nat) (v : α) :
    keysOf (setA m k v) = if k ∈ keysOf m then keysOf m else keysOf m ++ [k] := by
  by_cases h : k ∈ keysOf m
  · rw [if_pos h]
    induction m with
    | nil => simp [keysOf_nil] at h
    | cons kv rest ih =>
      obtain ⟨k', v'⟩ := kv
      rw [keysOf_cons] at h ⊢
      by_cases hk : k' = k
      · subst hk
        simp [setA, keysOf_cons]
      · rcases List.mem_cons.mp h with h1 | h1
        · exact absurd h1.symm hk
        · simp only [setA, if_neg hk, keysOf_cons, List.cons.injEq, true_and]
          exact ih h1
  · rw [if_neg h, setA_of_notMem v h, keysOf_append, keysOf_cons, keysOf_nil]

theorem keysOf_eraseA {α : Type} (m : List (Nat × α)) (k : Nat) :
    keysOf (eraseA m k) = (keysOf m).erase k := by
  induction m with
  | nil => simp [eraseA, keysOf_nil]
  | cons kv rest ih =>
    obtain ⟨k', v'⟩ := kv
    by_cases hk : k' = k
    · subst hk
      simp [eraseA, keysOf_cons, List.erase_cons_head]
    · rw [keysOf_cons, List.erase_cons_tail (by simpa using hk)]
      simp only [eraseA, if_neg hk, keysOf_cons, List.cons.injEq, true_and]
      exact ih

theorem eraseA_sublist {α : Type} (m : List (Nat × α)) (k : Nat) :
    (eraseA m k).Sublist m := by
  induction m with
  | nil => simp [eraseA]
  | cons kv rest ih =>
    obtain ⟨k', v'⟩ := kv
    by_cases hk : k' = k
    · simp only [eraseA, if_pos hk]
      exact List.sublist_cons_self _ _
    · simp only [eraseA, if_neg hk]
      exact ih.cons₂ _

theorem lookupA_eraseA_ne {α : Type} (m : List (Nat × α)) {k k' : Nat}
    (h : k' ≠ k) : lookupA (eraseA m k) k' = lookupA m k' := by
  induction m with
  | nil => simp [eraseA]
  | cons kv rest ih =>
    obtain ⟨k0, v0⟩ := kv
    by_cases hk : k0 = k
    · subst hk
      simp [eraseA, lookupA, Ne.symm h]
    · by_cases hk' : k0 = k'
      · subst hk'
        simp [eraseA, if_neg hk, lookupA]
      · simp only [eraseA, if_neg hk, lookupA, if_neg hk']
        exact ih

theorem lookupA_eraseA_self {α : Type} {m : List (Nat × α)} {k : Nat}
    (hnd : (keysOf m).Nodup) : lookupA (eraseA m k) k = none := by
  induction m with
  | nil => simp [eraseA, lookupA]
  | cons kv rest ih =>
    obtain ⟨k', v'⟩ := kv
    rw [keysOf_cons] at hnd
    have hnd1 := List.nodup_cons.mp hnd
    by_cases hk : k' = k
    · subst hk
      simp only [eraseA, if_pos rfl]
      rw [lookupA_eq_none_iff]
      exact hnd1.1
    · simp only [eraseA, if_neg hk, lookupA, if_neg hk]
      exact ih hnd1.2

theorem mem_eraseA_of_ne {α : Type} {m : List (Nat × α)} {k k' : Nat} {v : α}
    (hne : k' ≠ k) (h : (k', v) ∈ m) : (k', v) ∈ eraseA m k := by
  induction m with
  | nil => simp at h
  | cons kv rest ih =>
    obtain ⟨k0, v0⟩ := kv
    rcases List.mem_cons.mp h with h1 | h1
    · cases h1
      simp [eraseA, hne]
    · by_cases hk : k0 = k
      · simp [eraseA, hk, h1]
      · simp only [eraseA, if_neg hk, List.mem_cons]
        exact Or.inr (ih h1)

/-! ## Small structural lemmas about the registries -/

theorem devMemRemoveStep_pp {szBuf : Nat → Nat} {pid : Nat}
    {s r : ProxiesOnDevice} {b : Nat}
    (h : devMemRemoveStep szBuf pid s b = some r) :
    r.proxy_id_to_proxy = s.proxy_id_to_proxy := by
  simp only [devMemRemoveStep] at h
  split at h
  · split at h <;> (cases h; rfl)
  · cases h

theorem foldlM_devMemRemoveStep_pp {szBuf : Nat → Nat} {pid : Nat} :
    ∀ {L : List Nat} {s r : ProxiesOnDevice},
    L.foldlM (devMemRemoveStep szBuf pid) s = some r →
    r.proxy_id_to_proxy = s.proxy_id_to_proxy := by
  intro L
  induction L with
  | nil =>
    intro s r h
    simp only [List.foldlM_nil, pure, Option.some.injEq] at h
    rw [h]
  | cons b rest ih =>
    intro s r h
    simp only [List.foldlM_cons, Option.bind_eq_bind] at h
    cases hstep : devMemRemoveStep szBuf pid s b with
    | none => rw [hstep] at h; simp at h
    | some s2 =>
      rw [hstep] at h
      simp only [Option.some_bind] at h
      rw [ih h, devMemRemoveStep_pp hstep]

theorem mem_usage_remove_pp {szBuf : Nat → Nat} {s r : ProxiesOnDevice}
    {p : ProxyObject}
    (h : ProxiesOnDevice.mem_usage_remove szBuf s p = some r) :
    r.proxy_id_to_proxy = s.proxy_id_to_proxy := by
  simp only [ProxiesOnDevice.mem_usage_remove, Option.bind_eq_bind] at h
  cases hl : lookupA s.proxy_id_to_dev_mems p.pid with
  | none => rw [hl] at h; simp at h
  | some mems =>
    rw [hl] at h
    simp only [Option.some_bind] at h
    rw [foldlM_devMemRemoveStep_pp h]

theorem dev_remove_pp {szBuf : Nat → Nat} {s : ProxiesOnDevice}
    {p : ProxyObject} {r : ProxiesOnDevice × Bool}
    (h : ProxiesOnDevice.remove szBuf s p = some r) :
    r.1.proxy_id_to_proxy = eraseA s.proxy_id_to_proxy p.pid := by
  simp only [ProxiesOnDevice.remove, Option.bind_eq_bind] at h
  split at h
  · cases hmr : ProxiesOnDevice.mem_usage_remove szBuf
      { s with proxy_id_to_proxy := eraseA s.proxy_id_to_proxy p.pid } p with
    | none => rw [hmr] at h; simp at h
    | some s2 =>
      rw [hmr] at h
      simp only [Option.some_bind] at h
      have hpp := mem_usage_remove_pp hmr
      split at h <;> (cases h; simpa using hpp)
  · cases h

/-! ## Claim theorems: serializer dispatch (C10) -/

/-- C10: `get_proxies_by_serializer` returns the disk registry exactly for
`"disk"`, the host registry exactly for `"dask"`/`"pickle"`, and the device
registry for every other tag including `None`; consequently `ProxyManager.add`
registers an untracked proxy bearing any other tag into the device registry
(and thereby into the device tally). -/
theorem serializer_dispatch_default_dev :
    (∀ sr : Option String,
      (ProxyManager.get_proxies_by_serializer sr = Tier.disk ↔ sr = some "disk")
      ∧ (ProxyManager.get_proxies_by_serializer sr = Tier.host ↔
          (sr = some "dask" ∨ sr = some "pickle"))
      ∧ (ProxyManager.get_proxies_by_serializer sr = Tier.dev ↔
          (sr ≠ some "disk" ∧ sr ≠ some "dask" ∧ sr ≠ some "pickle")))
  ∧ (∀ (szProxy szBuf : Nat → Nat) (m : ProxyManager) (p : ProxyObject)
       (sr : Option String),
      ProxyManager.get_proxies_by_serializer sr = Tier.dev →
      m.get_proxies_by_proxy_object p = none →
      m.add szProxy szBuf p sr
        = (m.dev.add szBuf p).map (fun d => { m with dev := d })) := by
  constructor
  · intro sr
    refine ⟨?_, ?_, ?_⟩ <;>
      by_cases h1 : sr = some "disk" <;>
      by_cases h2 : sr = some "dask" <;>
      by_cases h3 : sr = some "pickle" <;>
      simp_all [ProxyManager.get_proxies_by_serializer]
  · intro szP szB m p sr hsr hold
    unfold ProxyManager.add
    rw [hold, hsr]
    cases h : m.dev.add szB p <;>
      simp [h, Option.bind]

/-- Witness for C10 at a concrete manager, proxy and unrecognized tag. -/
theorem serializer_dispatch_default_dev_witness :
    ProxyManager.add (fun _ => 1) (fun _ => 7)
      ⟨ProxiesOnHost.init, ProxiesOnHost.init, ProxiesOnDevice.init, 100, 100⟩
      ⟨1, [0], 0, some "cuda"⟩ (some "cuda")
      = (ProxiesOnDevice.add (fun _ => 7) ProxiesOnDevice.init
          ⟨1, [0], 0, some "cuda"⟩).map
          (fun d =>
            { (⟨ProxiesOnHost.init, ProxiesOnHost.init, ProxiesOnDevice.init,
                100, 100⟩ : ProxyManager) with dev := d }) :=
  serializer_dispatch_default_dev.2 (fun _ => 1) (fun _ => 7)
    ⟨ProxiesOnHost.init, ProxiesOnHost.init, ProxiesOnDevice.init, 100, 100⟩
    ⟨1, [0], 0, some "cuda"⟩ (some "cuda") (by decide) (by decide)

/-! ## Claim theorems: idempotent re-insertion (C6) -/

/-- C6: `ProxyManager.add` with a serializer tag that maps to the registry
the proxy already occupies is a no-op: the manager (all tracked-identity
sets and all tallies) is returned unchanged. -/
theorem add_idempotent_reinsertion :
    ∀ (szProxy szBuf : Nat → Nat) (m : ProxyManager) (p : ProxyObject)
      (sr : Option String),
    m.get_proxies_by_proxy_object p
      = some (ProxyManager.get_proxies_by_serializer sr) →
    m.add szProxy szBuf p sr = some m := by
  intro szP szB m p sr h
  unfold ProxyManager.add
  rw [h]
  simp

/-- Witness for C6: re-adding a device-resident proxy with its device tag. -/
theorem add_idempotent_reinsertion_witness :
    ProxyManager.add (fun _ => 1) (fun _ => 7)
      ⟨ProxiesOnHost.init, ProxiesOnHost.init,
        ⟨[(1, ⟨1, [0], 0, none⟩)], 7, [(1, [0])], [(0, [1])]⟩, 100, 100⟩
      ⟨1, [0], 0, none⟩ none
      = some ⟨ProxiesOnHost.init, ProxiesOnHost.init,
          ⟨[(1, ⟨1, [0], 0, none⟩)], 7, [(1, [0])], [(0, [1])]⟩, 100, 100⟩ :=
  add_idempotent_reinsertion (fun _ => 1) (fun _ => 7)
    ⟨ProxiesOnHost.init, ProxiesOnHost.init,
      ⟨[(1, ⟨1, [0], 0, none⟩)], 7, [(1, [0])], [(0, [1])]⟩, 100, 100⟩
    ⟨1, [0], 0, none⟩ none (by decide)

/-! ## Claim theorems: eviction policy wiring (C5) -/

/-- C5: `maybe_evict` runs the device-tier check and then the host-tier
check on the resulting state (device first), concatenating their call
traces; each check invokes `evict` iff the tier's usage plus the extra bytes
strictly exceeds the tier's limit, and requests exactly the overage. -/
theorem maybe_evict_wiring :
    (∀ (szProxy szBuf : Nat → Nat) (alive : Nat → Bool)
       (dd dh : ProxyManager → ProxyObject → ProxyManager)
       (m : ProxyManager) (extra : Int),
      ProxyManager.maybe_evict szProxy szBuf alive dd dh m extra
        = ((ProxyManager.maybe_evict_from_host szProxy alive dh
              (ProxyManager.maybe_evict_from_device szBuf alive dd m extra).1 0).1,
           (ProxyManager.maybe_evict_from_device szBuf alive dd m extra).2
             ++ (ProxyManager.maybe_evict_from_host szProxy alive dh
                   (ProxyManager.maybe_evict_from_device szBuf alive dd m extra).1 0).2))
  ∧ (∀ (szBuf : Nat → Nat) (alive : Nat → Bool)
       (dd : ProxyManager → ProxyObject → ProxyManager)
       (m : ProxyManager) (extra : Int),
      m.device_memory_limit < m.dev.mem_usage + extra →
      ProxyManager.maybe_evict_from_device szBuf alive dd m extra
        = ((ProxyManager.evict m (m.dev.mem_usage + extra - m.device_memory_limit)
              (ProxyManager.get_dev_access_info szBuf alive) dd).1,
           [⟨Tier.dev, m.dev.mem_usage + extra - m.device_memory_limit⟩]))
  ∧ (∀ (szBuf : Nat → Nat) (alive : Nat → Bool)
       (dd : ProxyManager → ProxyObject → ProxyManager)
       (m : ProxyManager) (extra : Int),
      ¬ m.device_memory_limit < m.dev.mem_usage + extra →
      ProxyManager.maybe_evict_from_device szBuf alive dd m extra = (m, []))
  ∧ (∀ (szProxy : Nat → Nat) (alive : Nat → Bool)
       (dh : ProxyManager → ProxyObject → ProxyManager)
       (m : ProxyManager) (extra : Int),
      m.host_memory_limit < m.host.mem_usage + extra →
      ProxyManager.maybe_evict_from_host szProxy alive dh m extra
        = ((ProxyManager.evict m (m.host.mem_usage + extra - m.host_memory_limit)
              (ProxyManager.get_host_access_info szProxy alive) dh).1,
           [⟨Tier.host, m.host.mem_usage + extra - m.host_memory_limit⟩]))
  ∧ (∀ (szProxy : Nat → Nat) (alive : Nat → Bool)
       (dh : ProxyManager → ProxyObject → ProxyManager)
       (m : ProxyManager) (extra : Int),
      ¬ m.host_memory_limit < m.host.mem_usage + extra →
      ProxyManager.maybe_evict_from_host szProxy alive dh m extra = (m, [])) := by
  refine ⟨?_, ?_, ?_, ?_, ?_⟩
  · intro szP szB alive dd dh m extra
    rfl
  · intro szB alive dd m extra h
    unfold ProxyManager.maybe_evict_from_device
    rw [if_pos (by omega)]
  · intro szB alive dd m extra h
    unfold ProxyManager.maybe_evict_from_device
    rw [if_neg (by omega)]
  · intro szP alive dh m extra h
    unfold ProxyManager.maybe_evict_from_host
    rw [if_pos (by omega)]
  · intro szP alive dh m extra h
    unfold ProxyManager.maybe_evict_from_host
    rw [if_neg (by omega)]

/-- Witness for C5: a device registry holding 50 bytes against a limit of
30 triggers a device evict call requesting exactly 20 bytes. -/
theorem maybe_evict_wiring_witness :
    ProxyManager.maybe_evict_from_device (fun _ => 50) (fun _ => true)
      (fun m _ => m)
      ⟨ProxiesOnHost.init, ProxiesOnHost.init,
        ⟨[(1, ⟨1, [0], 0, none⟩)], 50, [(1, [0])], [(0, [1])]⟩, 30, 100⟩ 0
      = ((ProxyManager.evict
            ⟨ProxiesOnHost.init, ProxiesOnHost.init,
              ⟨[(1, ⟨1, [0], 0, none⟩)], 50, [(1, [0])], [(0, [1])]⟩, 30, 100⟩
            20
            (ProxyManager.get_dev_access_info (fun _ => 50) (fun _ => true))
            (fun m _ => m)).1,
         [⟨Tier.dev, 20⟩]) :=
  maybe_evict_wiring.2.1 (fun _ => 50) (fun _ => true) (fun m _ => m)
    ⟨ProxiesOnHost.init, ProxiesOnHost.init,
      ⟨[(1, ⟨1, [0], 0, none⟩)], 50, [(1, [0])], [(0, [1])]⟩, 30, 100⟩ 0
    (by decide)

/-! ## Claim theorems: empty-registry tally auto-correction (C8) -/

/-- C8: when a registry's remove empties the registry, the resulting tally
is always exactly 0 and the warning is emitted iff the tally computed by the
memory-usage hook was non-zero (so a zero tally on emptiness warns nothing
and stays 0); the operation itself never raises for a tracked proxy in the
host/disk variant, and the warning path never raises in either variant. -/
theorem registry_remove_empty_reset :
    (∀ (szProxy : Nat → Nat) (s : ProxiesOnHost) (p : ProxyObject),
       s.contains_proxy_id p.pid = true → ∃ r, s.remove szProxy p = some r)
  ∧ (∀ (szProxy : Nat → Nat) (s : ProxiesOnHost) (p : ProxyObject)
       (s' : ProxiesOnHost) (w : Bool),
       s.remove szProxy p = some (s', w) → s'.proxy_id_to_proxy = [] →
       s'.mem_usage = 0 ∧ (w = true ↔ s.mem_usage - (szProxy p.pid : Int) ≠ 0))
  ∧ (∀ (szProxy : Nat → Nat) (s : ProxiesOnHost) (p : ProxyObject)
       (s' : ProxiesOnHost) (w : Bool),
       s.remove szProxy p = some (s', w) → s'.proxy_id_to_proxy ≠ [] →
       w = false ∧ s'.mem_usage = s.mem_usage - (szProxy p.pid : Int))
  ∧ (∀ (szBuf : Nat → Nat) (s : ProxiesOnDevice) (p : ProxyObject)
       (s' : ProxiesOnDevice) (w : Bool) (s1 : ProxiesOnDevice),
       s.remove szBuf p = some (s', w) →
       ProxiesOnDevice.mem_usage_remove szBuf
         { s with proxy_id_to_proxy := eraseA s.proxy_id_to_proxy p.pid } p
         = some s1 →
       s'.proxy_id_to_proxy = [] →
       s'.mem_usage = 0 ∧ (w = true ↔ s1.mem_usage ≠ 0)) := by
  refine ⟨?_, ?_, ?_, ?_⟩
  · intro szP s p hc
    simp only [ProxiesOnHost.remove, hc, if_true]
    split
    · exact ⟨_, rfl⟩
    · exact ⟨_, rfl⟩
  · intro szP s p s' w h hempty
    simp only [ProxiesOnHost.remove] at h
    split at h
    · split at h
      · rename_i hcond
        cases h
        exact ⟨rfl, by simp [hcond.2]⟩
      · rename_i hcond
        cases h
        rw [not_and_or] at hcond
        rcases hcond with hlen | hmem
        · exact absurd (by rw [List.length_eq_zero]; exact hempty) hlen
        · constructor
          · simpa using not_not.mp hmem
          · simp [not_not.mp hmem]
    · cases h
  · intro szP s p s' w h hne
    simp only [ProxiesOnHost.remove] at h
    split at h
    · split at h
      · rename_i hcond
        cases h
        exact absurd (List.length_eq_zero.mp hcond.1) hne
      · cases h
        exact ⟨rfl, rfl⟩
    · cases h
  · intro szB s p s' w s1 h hmr hempty
    simp only [ProxiesOnDevice.remove, Option.bind_eq_bind] at h
    split at h
    · rw [hmr] at h
      simp only [Option.some_bind] at h
      split at h
      · rename_i hcond
        cases h
        exact ⟨rfl, by simp [hcond.2]⟩
      · rename_i hcond
        cases h
        rw [not_and_or] at hcond
        rcases hcond with hlen | hmem
        · exact absurd (by rw [List.length_eq_zero]; exact hempty) hlen
        · constructor
          · simpa using not_not.mp hmem
          · simp [not_not.mp hmem]
    · cases h

/-- Witness for C8: removing the only proxy from a host registry whose tally
drifted to 3 resets the tally to 0 with a warning; with a consistent tally
of 5 it ends at 0 without warning. -/
theorem registry_remove_empty_reset_witness :
    (∃ r, ProxiesOnHost.remove (fun _ => 5) ⟨[(1, ⟨1, [], 0, none⟩)], 8⟩
            ⟨1, [], 0, none⟩ = some r)
    ∧ ((⟨[], 0⟩ : ProxiesOnHost).mem_usage = 0
        ∧ (true = true ↔ (8 : Int) - (5 : Nat) ≠ 0))
    ∧ ((⟨[], 0⟩ : ProxiesOnHost).mem_usage = 0
        ∧ (false = true ↔ (5 : Int) - (5 : Nat) ≠ 0)) :=
  ⟨registry_remove_empty_reset.1 (fun _ => 5) ⟨[(1, ⟨1, [], 0, none⟩)], 8⟩
      ⟨1, [], 0, none⟩ (by decide),
   registry_remove_empty_reset.2.1 (fun _ => 5) ⟨[(1, ⟨1, [], 0, none⟩)], 8⟩
      ⟨1, [], 0, none⟩ ⟨[], 0⟩ true (by decide) (by decide),
   registry_remove_empty_reset.2.1 (fun _ => 5) ⟨[(1, ⟨1, [], 0, none⟩)], 5⟩
      ⟨1, [], 0, none⟩ ⟨[], 0⟩ false (by decide) (by decide)⟩

/-! ## Claim theorems: removal error behaviour (C7) -/

/-- C7: `ProxyManager.remove` fails (assertion, modelled as `none`) for a
proxy tracked in no registry, fails for a proxy tracked in more than one
registry, and for a proxy tracked in exactly one registry removes it from
that registry. -/
theorem manager_remove_spec :
    (∀ (szProxy szBuf : Nat → Nat) (m : ProxyManager) (p : ProxyObject),
       m.disk.contains_proxy_id p.pid = false →
       m.host.contains_proxy_id p.pid = false →
       m.dev.contains_proxy_id p.pid = false →
       m.remove szProxy szBuf p = none)
  ∧ (∀ (szProxy szBuf : Nat → Nat) (m : ProxyManager) (p : ProxyObject),
       ((m.disk.contains_proxy_id p.pid = true ∧ m.host.contains_proxy_id p.pid = true)
        ∨ (m.disk.contains_proxy_id p.pid = true ∧ m.dev.contains_proxy_id p.pid = true)
        ∨ (m.host.contains_proxy_id p.pid = true ∧ m.dev.contains_proxy_id p.pid = true)) →
       m.remove szProxy szBuf p = none)
  ∧ (∀ (szProxy szBuf : Nat → Nat) (m : ProxyManager) (p : ProxyObject),
       m.disk.contains_proxy_id p.pid = true →
       m.host.contains_proxy_id p.pid = false →
       m.dev.contains_proxy_id p.pid = false →
       ∃ r, m.disk.remove szProxy p = some r
         ∧ m.remove szProxy szBuf p = some { m with disk := r.1 }
         ∧ ((keysOf m.disk.proxy_id_to_proxy).Nodup →
              r.1.contains_proxy_id p.pid = false))
  ∧ (∀ (szProxy szBuf : Nat → Nat) (m : ProxyManager) (p : ProxyObject),
       m.host.contains_proxy_id p.pid = true →
       m.disk.contains_proxy_id p.pid = false →
       m.dev.contains_proxy_id p.pid = false →
       ∃ r, m.host.remove szProxy p = some r
         ∧ m.remove szProxy szBuf p = some { m with host := r.1 }
         ∧ ((keysOf m.host.proxy_id_to_proxy).Nodup →
              r.1.contains_proxy_id p.pid = false))
  ∧ (∀ (szProxy szBuf : Nat → Nat) (m : ProxyManager) (p : ProxyObject),
       m.dev.contains_proxy_id p.pid = true →
       m.disk.contains_proxy_id p.pid = false →
       m.host.contains_proxy_id p.pid = false →
       m.remove szProxy szBuf p
         = (m.dev.remove szBuf p).map (fun r => { m with dev := r.1 })
       ∧ (∀ r, m.dev.remove szBuf p = some r →
            (keysOf m.dev.proxy_id_to_proxy).Nodup →
            r.1.contains_proxy_id p.pid = false)) := by
  refine ⟨?_, ?_, ?_, ?_, ?_⟩
  · intro szP szB m p h1 h2 h3
    simp [ProxyManager.remove, h1, h2, h3]
  · intro szP szB m p h
    rcases h with ⟨h1, h2⟩ | ⟨h1, h2⟩ | ⟨h1, h2⟩ <;>
      simp [ProxyManager.remove, h1, h2]
  · intro szP szB m p h1 h2 h3
    have hrem : ∃ r, m.disk.remove szP p = some r := by
      simp only [ProxiesOnHost.remove, h1, if_true]
      split
      · exact ⟨_, rfl⟩
      · exact ⟨_, rfl⟩
    obtain ⟨r, hr⟩ := hrem
    refine ⟨r, hr, ?_, ?_⟩
    · simp [ProxyManager.remove, h1, h2, h3, hr]
    · intro hnd
      have hpp : r.1.proxy_id_to_proxy = eraseA m.disk.proxy_id_to_proxy p.pid := by
        simp only [ProxiesOnHost.remove, h1, if_true] at hr
        split at hr <;> (cases hr; rfl)
      simp only [ProxiesOnHost.contains_proxy_id, hpp]
      rw [lookupA_eraseA_self hnd]
      rfl
  · intro szP szB m p h1 h2 h3
    have hrem : ∃ r, m.host.remove szP p = some r := by
      simp only [ProxiesOnHost.remove, h1, if_true]
      split
      · exact ⟨_, rfl⟩
      · exact ⟨_, rfl⟩
    obtain ⟨r, hr⟩ := hrem
    refine ⟨r, hr, ?_, ?_⟩
    · simp [ProxyManager.remove, h1, h2, h3, hr]
    · intro hnd
      have hpp : r.1.proxy_id_to_proxy = eraseA m.host.proxy_id_to_proxy p.pid := by
        simp only [ProxiesOnHost.remove, h1, if_true] at hr
        split at hr <;> (cases hr; rfl)
      simp only [ProxiesOnHost.contains_proxy_id, hpp]
      rw [lookupA_eraseA_self hnd]
      rfl
  · intro szP szB m p h1 h2 h3
    constructor
    · cases hr : m.dev.remove szB p <;>
        simp [ProxyManager.remove, h1, h2, h3, hr, Option.bind]
    · intro r hr hnd
      have hpp := dev_remove_pp hr
      simp only [ProxiesOnDevice.contains_proxy_id, hpp]
      rw [lookupA_eraseA_self hnd]
      rfl

/-- Witness for C7: a proxy tracked only on the device tier is removed from
the device registry; the concrete manager has one device proxy. -/
theorem manager_remove_spec_witness :
    ProxyManager.remove (fun _ => 1) (fun _ => 7)
      ⟨ProxiesOnHost.init, ProxiesOnHost.init,
        ⟨[(1, ⟨1, [0], 0, none⟩)], 7, [(1, [0])], [(0, [1])]⟩, 100, 100⟩
      ⟨1, [0], 0, none⟩
      = (ProxiesOnDevice.remove (fun _ => 7)
          ⟨[(1, ⟨1, [0], 0, none⟩)], 7, [(1, [0])], [(0, [1])]⟩
          ⟨1, [0], 0, none⟩).map
          (fun r =>
            { (⟨ProxiesOnHost.init, ProxiesOnHost.init,
                ⟨[(1, ⟨1, [0], 0, none⟩)], 7, [(1, [0])], [(0, [1])]⟩,
                100, 100⟩ : ProxyManager) with dev := r.1 }) :=
  (manager_remove_spec.2.2.2.2 (fun _ => 1) (fun _ => 7)
    ⟨ProxiesOnHost.init, ProxiesOnHost.init,
      ⟨[(1, ⟨1, [0], 0, none⟩)], 7, [(1, [0])], [(0, [1])]⟩, 100, 100⟩
    ⟨1, [0], 0, none⟩ (by decide) (by decide) (by decide)).1

/-! ## Claim theorems: eviction victim ordering (C2) -/

theorem accessLE_trans : ∀ a b c : AccessEntry,
    accessLE a b → accessLE b c → accessLE a c := by
  intro a b c hab hbc
  simp only [accessLE, decide_eq_true_eq] at hab hbc ⊢
  omega

theorem accessLE_total : ∀ a b : AccessEntry, accessLE a b || accessLE b a := by
  intro a b
  simp only [accessLE, Bool.or_eq_true, decide_eq_true_eq]
  omega

/-- C2: the snapshot sort of `evict` permutes the snapshot into a list
sorted ascending by access time with ties broken by descending size, and it
is stable (any sorted sublist of the input stays a sublist of the output).
Consequently, the entry of the strictly oldest access time comes first for
equal sizes, and for an equal access time the larger size comes first. -/
theorem evict_sort_spec :
    (∀ access : List AccessEntry,
      (sortAccess access).Perm access
      ∧ (sortAccess access).Pairwise (fun a b => accessLE a b = true)
      ∧ (∀ c : List AccessEntry, c.Pairwise (fun a b => accessLE a b = true) →
          c.Sublist access → c.Sublist (sortAccess access)))
  ∧ (∀ (t1 t2 t3 sz : Nat) (h1 h2 h3 : List ProxyObject),
      t1 < t2 → t2 < t3 →
      ∀ l : List AccessEntry,
        l.Perm [(t1, sz, h1), (t2, sz, h2), (t3, sz, h3)] →
        sortAccess l = [(t1, sz, h1), (t2, sz, h2), (t3, sz, h3)])
  ∧ (∀ (t s1 s2 : Nat) (h1 h2 : List ProxyObject),
      s2 < s1 →
      ∀ l : List AccessEntry,
        l.Perm [(t, s1, h1), (t, s2, h2)] →
        sortAccess l = [(t, s1, h1), (t, s2, h2)]) := by
  refine ⟨?_, ?_, ?_⟩
  · intro access
    refine ⟨List.mergeSort_perm access accessLE,
            List.sorted_mergeSort accessLE_trans accessLE_total access, ?_⟩
    intro c hc hsub
    exact List.sublist_mergeSort accessLE_trans accessLE_total hc hsub
  · intro t1 t2 t3 sz h1 h2 h3 ht12 ht23 l hperm
    have hsorted := List.sorted_mergeSort accessLE_trans accessLE_total l
    have hp : (sortAccess l).Perm [(t1, sz, h1), (t2, sz, h2), (t3, sz, h3)] :=
      (List.mergeSort_perm l accessLE).trans hperm
    refine List.Perm.eq_of_sorted ?_ hsorted ?_ hp
    · intro a b ha hb hab hba
      have ha2 : a ∈ ([(t1, sz, h1), (t2, sz, h2), (t3, sz, h3)] : List AccessEntry) :=
        hp.subset ha
      simp only [List.mem_cons, List.not_mem_nil, or_false] at ha2 hb
      rcases ha2 with rfl | rfl | rfl <;> rcases hb with rfl | rfl | rfl <;>
        first
          | rfl
          | (exfalso
             simp only [accessLE, decide_eq_true_eq] at hab hba
             omega)
    · refine List.Pairwise.cons ?_ (List.Pairwise.cons ?_
        (List.Pairwise.cons (by simp) List.Pairwise.nil))
      · intro e he
        simp only [List.mem_cons, List.not_mem_nil, or_false] at he
        rcases he with rfl | rfl <;>
          (simp only [accessLE, decide_eq_true_eq]; omega)
      · intro e he
        simp only [List.mem_cons, List.not_mem_nil, or_false] at he
        rcases he with rfl
        simp only [accessLE, decide_eq_true_eq]
        omega
  · intro t s1 s2 h1 h2 hs l hperm
    have hsorted := List.sorted_mergeSort accessLE_trans accessLE_total l
    have hp : (sortAccess l).Perm [(t, s1, h1), (t, s2, h2)] :=
      (List.mergeSort_perm l accessLE).trans hperm
    refine List.Perm.eq_of_sorted ?_ hsorted ?_ hp
    · intro a b ha hb hab hba
      have ha2 : a ∈ ([(t, s1, h1), (t, s2, h2)] : List AccessEntry) :=
        hp.subset ha
      simp only [List.mem_cons, List.not_mem_nil, or_false] at ha2 hb
      rcases ha2 with rfl | rfl <;> rcases hb with rfl | rfl <;>
        first
          | rfl
          | (exfalso
             simp only [accessLE, decide_eq_true_eq] at hab hba
             omega)
    · refine List.Pairwise.cons ?_ (List.Pairwise.cons (by simp) List.Pairwise.nil)
      intro e he
      simp only [List.mem_cons, List.not_mem_nil, or_false] at he
      rcases he with rfl
      simp only [accessLE, decide_eq_true_eq]
      exact Or.inr ⟨trivial, Nat.le_of_lt hs⟩

/-- Witness for C2: a reversed three-entry snapshot of equal sizes is
sorted back into ascending access-time order. -/
theorem evict_sort_spec_witness :
    sortAccess [(3, 5, []), (2, 5, []), (1, 5, [])]
      = [(1, 5, []), (2, 5, []), (3, 5, [])] :=
  evict_sort_spec.2.1 1 2 3 5 [] [] [] (by decide) (by decide)
    [(3, 5, []), (2, 5, []), (1, 5, [])] (by decide)

/-! ## Claim theorems: eviction accumulation and demotion (C3) -/

theorem evictLoop_spec (nbytes : Int) :
    ∀ (S : List AccessEntry) (acc : Nat),
    ∃ k, k ≤ S.length ∧
      evictLoop nbytes acc S
        = (acc + ((S.take k).map (fun e => e.2.1)).sum,
           ((S.take k).map (fun e => e.2.2)).join) ∧
      (∀ j, 0 < j → j < k →
        ((acc + ((S.take j).map (fun e => e.2.1)).sum : Nat) : Int) < nbytes) ∧
      (k = S.length ∨
        nbytes ≤ ((acc + ((S.take k).map (fun e => e.2.1)).sum : Nat) : Int)) ∧
      (S ≠ [] → 0 < k) := by
  intro S
  induction S with
  | nil =>
    intro acc
    refine ⟨0, Nat.le_refl 0, by simp [evictLoop], by omega, Or.inl rfl, by simp⟩
  | cons e rest ih =>
    intro acc
    obtain ⟨t, sz, ps⟩ := e
    by_cases hstop : nbytes ≤ ((acc + sz : Nat) : Int)
    · refine ⟨1, by simp, ?_, ?_, Or.inr ?_, fun _ => Nat.one_pos⟩
      · simp only [evictLoop]
        rw [if_pos hstop]
        simp [List.take_succ_cons]
      · intro j hj0 hj1
        omega
      · simpa using hstop
    · obtain ⟨k, hk, heq, hjc, hdisj, _⟩ := ih (acc + sz)
      refine ⟨k + 1, by simpa using hk, ?_, ?_, ?_,
        fun _ => Nat.succ_pos k⟩
      · simp only [evictLoop, if_neg hstop]
        rw [heq]
        simp [List.take_succ_cons, Nat.add_assoc]
      · intro j hj0 hjk
        match j, hj0 with
        | 1, _ =>
          simp only [List.take_succ_cons, List.take_zero, List.map_cons,
            List.map_nil, List.sum_cons, List.sum_nil]
          push_cast at hstop ⊢
          omega
        | (j' + 2), _ =>
          have hj' : 0 < j' + 1 := Nat.succ_pos j'
          have hjk' : j' + 1 < k := by omega
          have := hjc (j' + 1) hj' hjk'
          simp only [List.take_succ_cons, List.map_cons, List.sum_cons]
          push_cast at this ⊢
          omega
      · rcases hdisj with h | h
        · left
          simp [h]
        · right
          simp only [List.take_succ_cons, List.map_cons, List.sum_cons]
          push_cast at h ⊢
          omega

theorem dedupProxies_sublist :
    ∀ (l : List ProxyObject) (seen : List Nat),
    (dedupProxies l seen).Sublist l := by
  intro l
  induction l with
  | nil => intro seen; simp [dedupProxies]
  | cons p rest ih =>
    intro seen
    by_cases h : p.pid ∈ seen
    · simp only [dedupProxies, if_pos h]
      exact (ih seen).trans (List.sublist_cons_self p rest)
    · simp only [dedupProxies, if_neg h]
      exact (ih (p.pid :: seen)).cons₂ p

theorem dedupProxies_nodup :
    ∀ (l : List ProxyObject) (seen : List Nat),
    ((dedupProxies l seen).map (·.pid)).Nodup
    ∧ ∀ q ∈ dedupProxies l seen, q.pid ∉ seen := by
  intro l
  induction l with
  | nil => intro seen; simp [dedupProxies]
  | cons p rest ih =>
    intro seen
    by_cases h : p.pid ∈ seen
    · simpa only [dedupProxies, if_pos h] using ih seen
    · simp only [dedupProxies, if_neg h, List.map_cons, List.nodup_cons]
      obtain ⟨ihnd, ihseen⟩ := ih (p.pid :: seen)
      refine ⟨⟨?_, ihnd⟩, ?_⟩
      · intro hmem
        rcases List.mem_map.mp hmem with ⟨q, hq, hqpid⟩
        exact ihseen q hq (by rw [hqpid]; exact List.mem_cons_self _ _)
      · intro q hq
        rcases List.mem_cons.mp hq with rfl | hq2
        · exact h
        · intro hqseen
          exact ihseen q hq2 (List.mem_cons_of_mem _ hqseen)

theorem dedupProxies_covers :
    ∀ (l : List ProxyObject) (seen : List Nat) (p : ProxyObject),
    p ∈ l → p.pid ∉ seen →
    ∃ q ∈ dedupProxies l seen, q.pid = p.pid := by
  intro l
  induction l with
  | nil => intro seen p hp; simp at hp
  | cons hd rest ih =>
    intro seen p hp hseen
    rcases List.mem_cons.mp hp with rfl | hp2
    · simp only [dedupProxies, if_neg hseen]
      exact ⟨p, List.mem_cons_self _ _, rfl⟩
    · by_cases h : hd.pid ∈ seen
      · simp only [dedupProxies, if_pos h]
        exact ih seen p hp2 hseen
      · simp only [dedupProxies, if_neg h]
        by_cases hph : p.pid = hd.pid
        · exact ⟨hd, List.mem_cons_self _ _, hph.symm⟩
        · obtain ⟨q, hq, hqpid⟩ :=
            ih (hd.pid :: seen) p hp2 (by
              intro hmem
              rcases List.mem_cons.mp hmem with he | he
              · exact hph he
              · exact hseen he)
          exact ⟨q, List.mem_cons_of_mem _ hq, hqpid⟩

/-- C3: `evict` walks the sorted snapshot accumulating sizes into `freed`
and collecting handles, stops at the first entry where `freed ≥ nbytes`
(never undershooting unless the whole snapshot is consumed), calls the
demotion callback exactly once per distinct handle identity in collection
order (a sublist of the collected handles with duplicate-free identities
covering every collected identity), and returns `freed`, the sum of the
accumulated entry sizes. -/
theorem evict_accumulation_spec :
    ∀ (nbytes : Int) (access : List AccessEntry),
    ∃ (k : Nat) (freed : Nat) (collected demoted : List ProxyObject),
      k ≤ (sortAccess access).length ∧
      freed = (((sortAccess access).take k).map (fun e => e.2.1)).sum ∧
      collected = (((sortAccess access).take k).map (fun e => e.2.2)).join ∧
      demoted = dedupProxies collected [] ∧
      evictLoop nbytes 0 (sortAccess access) = (freed, collected) ∧
      (∀ j, 0 < j → j < k →
        (((((sortAccess access).take j).map (fun e => e.2.1)).sum : Nat) : Int)
          < nbytes) ∧
      (k = (sortAccess access).length ∨ nbytes ≤ (freed : Int)) ∧
      (∀ (σ : Type) (st : σ) (pa : σ → List AccessEntry)
         (ser : σ → ProxyObject → σ),
        pa st = access →
        ProxyManager.evict st nbytes pa ser = (demoted.foldl ser st, freed)) ∧
      demoted.Sublist collected ∧
      (demoted.map (·.pid)).Nodup ∧
      (∀ p ∈ collected, ∃ q ∈ demoted, q.pid = p.pid) := by
  intro nbytes access
  obtain ⟨k, hk, heq, hjc, hdisj, _⟩ := evictLoop_spec nbytes (sortAccess access) 0
  rw [Nat.zero_add] at heq
  simp only [Nat.zero_add] at hjc hdisj
  refine ⟨k, _, _, _, hk, rfl, rfl, rfl, heq, hjc, ?_, ?_, ?_, ?_, ?_⟩
  · rcases hdisj with h | h
    · exact Or.inl h
    · right
      simpa using h
  · intro σ st pa ser hpa
    unfold ProxyManager.evict
    rw [hpa, heq]
  · exact dedupProxies_sublist _ []
  · exact (dedupProxies_nodup _ []).1
  · intro p hp
    exact dedupProxies_covers _ [] p hp (by simp)

/-- Witness for C3 at a concrete target and snapshot: two entries of 50
bytes cover a 60-byte request, the duplicated handle is demoted once. -/
theorem evict_accumulation_spec_witness :
    ∃ (k : Nat) (freed : Nat) (collected demoted : List ProxyObject),
      k ≤ (sortAccess [(1, 50, [⟨1, [0], 1, none⟩]), (2, 50, [⟨1, [0], 2, none⟩])]).length ∧
      freed = (((sortAccess [(1, 50, [⟨1, [0], 1, none⟩]), (2, 50, [⟨1, [0], 2, none⟩])]).take k).map (fun e => e.2.1)).sum ∧
      collected = (((sortAccess [(1, 50, [⟨1, [0], 1, none⟩]), (2, 50, [⟨1, [0], 2, none⟩])]).take k).map (fun e => e.2.2)).join ∧
      demoted = dedupProxies collected [] ∧
      evictLoop 60 0 (sortAccess [(1, 50, [⟨1, [0], 1, none⟩]), (2, 50, [⟨1, [0], 2, none⟩])]) = (freed, collected) ∧
      (∀ j, 0 < j → j < k →
        (((((sortAccess [(1, 50, [⟨1, [0], 1, none⟩]), (2, 50, [⟨1, [0], 2, none⟩])]).take j).map (fun e => e.2.1)).sum : Nat) : Int) < 60) ∧
      (k = (sortAccess [(1, 50, [⟨1, [0], 1, none⟩]), (2, 50, [⟨1, [0], 2, none⟩])]).length ∨ (60 : Int) ≤ (freed : Int)) ∧
      (∀ (σ : Type) (st : σ) (pa : σ → List AccessEntry)
         (ser : σ → ProxyObject → σ),
        pa st = [(1, 50, [⟨1, [0], 1, none⟩]), (2, 50, [⟨1, [0], 2, none⟩])] →
        ProxyManager.evict st 60 pa ser = (demoted.foldl ser st, freed)) ∧
      demoted.Sublist collected ∧
      (demoted.map (·.pid)).Nodup ∧
      (∀ p ∈ collected, ∃ q ∈ demoted, q.pid = p.pid) :=
  evict_accumulation_spec 60 [(1, 50, [⟨1, [0], 1, none⟩]), (2, 50, [⟨1, [0], 2, none⟩])]

/-! ## Claim theorems: device access snapshot (C4) -/

theorem mem_setA {α : Type} {m : List (Nat × α)} {k : Nat} {v : α}
    {x : Nat × α} (h : x ∈ setA m k v) : x ∈ m ∨ x = (k, v) := by
  induction m with
  | nil => simpa [setA] using h
  | cons kv rest ih =>
    obtain ⟨k', v'⟩ := kv
    by_cases hk : k' = k
    · subst hk
      simp only [setA, if_true, eq_self_iff_true, List.mem_cons] at h
      rcases h with h | h
      · exact Or.inr h
      · exact Or.inl (List.mem_cons_of_mem _ h)
    · simp only [setA, if_neg hk, List.mem_cons] at h
      rcases h with rfl | h
      · exact Or.inl (List.mem_cons_self _ _)
      · rcases ih h with h2 | h2
        · exact Or.inl (List.mem_cons_of_mem _ h2)
        · exact Or.inr h2

theorem memEntry_appendToEntry (m : List (Nat × List ProxyObject))
    (b : Nat) (p : ProxyObject) (b' : Nat) (q : ProxyObject) :
    memEntry (appendToEntry m b p) b' q ↔
      memEntry m b' q ∨ (b' = b ∧ q = p) := by
  by_cases hb : b' = b
  · subst hb
    have h1 : lookupA (appendToEntry m b' p) b'
        = some ((lookupA m b').getD [] ++ [p]) := by
      unfold appendToEntry
      exact lookupA_setA_self m b' _
    constructor
    · rintro ⟨l, hl, hq⟩
      rw [h1, Option.some.injEq] at hl
      subst hl
      rcases List.mem_append.mp hq with hq2 | hq2
      · cases hl0 : lookupA m b' with
        | none =>
          rw [hl0] at hq2
          simp at hq2
        | some l0 =>
          rw [hl0] at hq2
          exact Or.inl ⟨l0, hl0, by simpa using hq2⟩
      · exact Or.inr ⟨rfl, by simpa using hq2⟩
    · rintro (⟨l, hl, hq⟩ | ⟨-, rfl⟩)
      · refine ⟨_, h1, ?_⟩
        simp only [hl, Option.getD_some]
        exact List.mem_append_left _ hq
      · exact ⟨_, h1, List.mem_append_right _ (by simp)⟩
  · unfold memEntry appendToEntry
    rw [lookupA_setA_ne _ _ hb]
    simp [hb]

theorem keysOf_appendToEntry (m : List (Nat × List ProxyObject))
    (b : Nat) (p : ProxyObject) :
    keysOf (appendToEntry m b p)
      = if b ∈ keysOf m then keysOf m else keysOf m ++ [b] := by
  unfold appendToEntry
  rw [keysOf_setA]

theorem entries_appendToEntry {m : List (Nat × List ProxyObject)}
    {b : Nat} {p : ProxyObject} {b' : Nat} {l : List ProxyObject}
    (h : (b', l) ∈ appendToEntry m b p) :
    (b', l) ∈ m ∨ l = (lookupA m b).getD [] ++ [p] := by
  rcases mem_setA h with h2 | h2
  · exact Or.inl h2
  · exact Or.inr (by cases h2; rfl)

theorem inner_fold_spec (p : ProxyObject) :
    ∀ (L : List Nat) (acc : List (Nat × List ProxyObject)),
    (∀ b', b' ∈ keysOf (L.foldl (fun a b => appendToEntry a b p) acc) ↔
        b' ∈ keysOf acc ∨ b' ∈ L)
    ∧ (∀ b' q, memEntry (L.foldl (fun a b => appendToEntry a b p) acc) b' q ↔
        memEntry acc b' q ∨ (q = p ∧ b' ∈ L))
    ∧ ((keysOf acc).Nodup →
        (keysOf (L.foldl (fun a b => appendToEntry a b p) acc)).Nodup)
    ∧ ((∀ b' l, (b', l) ∈ acc → l ≠ []) →
        ∀ b' l, (b', l) ∈ L.foldl (fun a b => appendToEntry a b p) acc →
          l ≠ []) := by
  intro L
  induction L with
  | nil =>
    intro acc
    refine ⟨by simp, by simp, fun h => h, fun h => h⟩
  | cons b L ih =>
    intro acc
    obtain ⟨ihk, ihm, ihnd, ihne⟩ := ih (appendToEntry acc b p)
    refine ⟨?_, ?_, ?_, ?_⟩
    · intro b'
      rw [List.foldl_cons, ihk, keysOf_appendToEntry]
      by_cases hb : b ∈ keysOf acc
      · rw [if_pos hb]
        simp only [List.mem_cons]
        constructor
        · tauto
        · rintro (h | rfl | h) <;> tauto
      · rw [if_neg hb]
        simp only [List.mem_append, List.mem_singleton, List.mem_cons]
        constructor
        · tauto
        · rintro (h | rfl | h) <;> tauto
    · intro b' q
      rw [List.foldl_cons, ihm, memEntry_appendToEntry]
      simp only [List.mem_cons]
      constructor
      · rintro ((h | ⟨rfl, rfl⟩) | ⟨rfl, h⟩) <;> tauto
      · rintro (h | ⟨rfl, h⟩)
        · tauto
        · rcases h with rfl | h2 <;> tauto
    · intro hnd
      refine ihnd ?_
      rw [keysOf_appendToEntry]
      by_cases hb : b ∈ keysOf acc
      · rwa [if_pos hb]
      · rw [if_neg hb, List.nodup_append]
        refine ⟨hnd, List.nodup_singleton b, ?_⟩
        intro a ha hab
        rw [List.mem_singleton] at hab
        subst hab
        exact hb ha
    · intro hne
      refine ihne ?_
      intro b' l hl
      rcases entries_appendToEntry hl with h2 | h2
      · exact hne b' l h2
      · rw [h2]
        simp

theorem buffer_to_proxies_fold_spec :
    ∀ (ps : List ProxyObject) (acc : List (Nat × List ProxyObject)),
    (∀ b, b ∈ keysOf (ps.foldl
        (fun acc p => p.devMems.foldl (fun a b => appendToEntry a b p) acc) acc) ↔
        b ∈ keysOf acc ∨ ∃ p ∈ ps, b ∈ p.devMems)
    ∧ (∀ b q, memEntry (ps.foldl
        (fun acc p => p.devMems.foldl (fun a b => appendToEntry a b p) acc) acc) b q ↔
        memEntry acc b q ∨ (q ∈ ps ∧ b ∈ q.devMems))
    ∧ ((keysOf acc).Nodup → (keysOf (ps.foldl
        (fun acc p => p.devMems.foldl (fun a b => appendToEntry a b p) acc) acc)).Nodup)
    ∧ ((∀ b l, (b, l) ∈ acc → l ≠ []) →
        ∀ b l, (b, l) ∈ ps.foldl
          (fun acc p => p.devMems.foldl (fun a b => appendToEntry a b p) acc) acc →
          l ≠ []) := by
  intro ps
  induction ps with
  | nil =>
    intro acc
    refine ⟨by simp, by simp, fun h => h, fun h => h⟩
  | cons p rest ih =>
    intro acc
    obtain ⟨ihk, ihm, ihnd, ihne⟩ :=
      ih (p.devMems.foldl (fun a b => appendToEntry a b p) acc)
    obtain ⟨innk, innm, innnd, innne⟩ := inner_fold_spec p p.devMems acc
    refine ⟨?_, ?_, ?_, ?_⟩
    · intro b
      rw [List.foldl_cons, ihk, innk]
      simp only [List.mem_cons]
      constructor
      · rintro ((h | h) | ⟨q, hq, hqb⟩)
        · tauto
        · exact Or.inr ⟨p, Or.inl rfl, h⟩
        · exact Or.inr ⟨q, Or.inr hq, hqb⟩
      · rintro (h | ⟨q, hq | hq, hqb⟩)
        · tauto
        · subst hq
          tauto
        · exact Or.inr ⟨q, hq, hqb⟩
    · intro b q
      rw [List.foldl_cons, ihm, innm]
      simp only [List.mem_cons]
      constructor
      · rintro ((h | ⟨rfl, h⟩) | ⟨hq, hqb⟩)
        · tauto
        · exact Or.inr ⟨Or.inl rfl, h⟩
        · exact Or.inr ⟨Or.inr hq, hqb⟩
      · rintro (h | ⟨rfl | hq, hqb⟩)
        · tauto
        · exact Or.inl (Or.inr ⟨rfl, hqb⟩)
        · exact Or.inr ⟨hq, hqb⟩
    · intro hnd
      exact ihnd (innnd hnd)
    · intro hne
      exact ihne (innne hne)

theorem foldl_max_acc : ∀ (l : List Nat) (a : Nat),
    l.foldl max a = max a (l.foldl max 0) := by
  intro l
  induction l with
  | nil => intro a; simp
  | cons x l ih =>
    intro a
    simp only [List.foldl_cons]
    rw [ih (max a x), ih (max 0 x), Nat.zero_max, Nat.max_assoc]

theorem listMax_le {l : List Nat} : ∀ x ∈ l, x ≤ listMax l := by
  intro x hx
  induction l with
  | nil => simp at hx
  | cons y l ih =>
    unfold listMax
    simp only [List.foldl_cons, Nat.zero_max]
    rw [foldl_max_acc l y]
    rcases List.mem_cons.mp hx with rfl | hx2
    · exact Nat.le_max_left _ _
    · exact Nat.le_trans (ih hx2) (Nat.le_max_right _ _)

theorem listMax_mem {l : List Nat} (h : l ≠ []) : listMax l ∈ l := by
  induction l with
  | nil => exact absurd rfl h
  | cons y l ih =>
    unfold listMax
    simp only [List.foldl_cons, Nat.zero_max]
    rw [foldl_max_acc l y]
    rcases Nat.le_total (l.foldl max 0) y with hle | hle
    · rw [Nat.max_eq_left hle]
      exact List.mem_cons_self _ _
    · rw [Nat.max_eq_right hle]
      cases l with
      | nil =>
        simp at hle
        simp [hle]
      | cons z l' =>
        exact List.mem_cons_of_mem _ (ih (by simp))

/-- C4: the device access snapshot has exactly one entry per distinct device
buffer referenced by a live device-resident proxy; each entry lists exactly
the live device proxies referencing its buffer (a non-empty list), its
access time is the maximum (attained) last-access time over those proxies,
and its size is the buffer's externally-reported size. -/
theorem dev_access_info_spec :
    ∀ (szBuf : Nat → Nat) (alive : Nat → Bool) (m : ProxyManager),
    (keysOf (buffer_to_proxies (m.dev.get_proxies alive))).Nodup
    ∧ (∀ b, b ∈ keysOf (buffer_to_proxies (m.dev.get_proxies alive)) ↔
        ∃ p ∈ m.dev.get_proxies alive, b ∈ p.devMems)
    ∧ (∀ b l, lookupA (buffer_to_proxies (m.dev.get_proxies alive)) b = some l →
        (∀ q, q ∈ l ↔ q ∈ m.dev.get_proxies alive ∧ b ∈ q.devMems) ∧
        l ≠ [] ∧
        (∃ q ∈ l, q.lastAccess = listMax (l.map (·.lastAccess))) ∧
        (∀ q ∈ l, q.lastAccess ≤ listMax (l.map (·.lastAccess))))
    ∧ ProxyManager.get_dev_access_info szBuf alive m
        = (buffer_to_proxies (m.dev.get_proxies alive)).map
            (fun bp => (listMax (bp.2.map (·.lastAccess)), szBuf bp.1, bp.2)) := by
  intro szBuf alive m
  obtain ⟨hk, hm, hnd, hne⟩ :=
    buffer_to_proxies_fold_spec (m.dev.get_proxies alive) []
  refine ⟨?_, ?_, ?_, rfl⟩
  · exact hnd (by simp [keysOf_nil])
  · intro b
    rw [show buffer_to_proxies (m.dev.get_proxies alive)
        = (m.dev.get_proxies alive).foldl
            (fun acc p => p.devMems.foldl (fun a b => appendToEntry a b p) acc) []
      from rfl, hk b]
    simp [keysOf_nil]
  · intro b l hl
    have hmem : ∀ q, q ∈ l ↔ q ∈ m.dev.get_proxies alive ∧ b ∈ q.devMems := by
      intro q
      have := hm b q
      rw [show buffer_to_proxies (m.dev.get_proxies alive)
          = (m.dev.get_proxies alive).foldl
              (fun acc p => p.devMems.foldl (fun a b => appendToEntry a b p) acc) []
        from rfl] at hl
      constructor
      · intro hq
        rcases this.mp ⟨l, hl, hq⟩ with ⟨l0, hl0, _⟩ | h2
        · simp [lookupA] at hl0
        · exact h2
      · intro hq
        rcases this.mpr (Or.inr hq) with ⟨l0, hl0, hq0⟩
        rw [hl] at hl0
        cases hl0
        exact hq0
    have hlne : l ≠ [] := by
      refine hne (by simp) b l ?_
      exact lookupA_mem hl
    refine ⟨hmem, hlne, ?_, ?_⟩
    · have : listMax (l.map (·.lastAccess)) ∈ l.map (·.lastAccess) :=
        listMax_mem (by simpa using hlne)
      rcases List.mem_map.mp this with ⟨q, hq, hqa⟩
      exact ⟨q, hq, hqa⟩
    · intro q hq
      exact listMax_le _ (List.mem_map_of_mem _ hq)

/-- Witness for C4: two live device proxies sharing buffer 0 with access
times 3 and 9 yield one entry whose list holds both and whose access time
is 9. -/
theorem dev_access_info_spec_witness :
    (∀ q, q ∈ [(⟨1, [0], 3, none⟩ : ProxyObject), ⟨2, [0], 9, none⟩] ↔
        q ∈ ProxiesOnDevice.get_proxies (fun _ => true)
              ⟨[(1, ⟨1, [0], 3, none⟩), (2, ⟨2, [0], 9, none⟩)], 50,
                [(1, [0]), (2, [0])], [(0, [1, 2])]⟩
          ∧ 0 ∈ q.devMems) ∧
    ([(⟨1, [0], 3, none⟩ : ProxyObject), ⟨2, [0], 9, none⟩] ≠ []) ∧
    (∃ q ∈ [(⟨1, [0], 3, none⟩ : ProxyObject), ⟨2, [0], 9, none⟩],
        q.lastAccess = listMax
          ([(⟨1, [0], 3, none⟩ : ProxyObject), ⟨2, [0], 9, none⟩].map (·.lastAccess))) ∧
    (∀ q ∈ [(⟨1, [0], 3, none⟩ : ProxyObject), ⟨2, [0], 9, none⟩],
        q.lastAccess ≤ listMax
          ([(⟨1, [0], 3, none⟩ : ProxyObject), ⟨2, [0], 9, none⟩].map (·.lastAccess))) :=
  (dev_access_info_spec (fun _ => 50) (fun _ => true)
    ⟨ProxiesOnHost.init, ProxiesOnHost.init,
      ⟨[(1, ⟨1, [0], 3, none⟩), (2, ⟨2, [0], 9, none⟩)], 50,
        [(1, [0]), (2, [0])], [(0, [1, 2])]⟩, 100, 100⟩).2.2.1 0
    [⟨1, [0], 3, none⟩, ⟨2, [0], 9, none⟩] (by decide)

/-! ## Claim theorems: insert over an existing key (C9) -/

/-- C9 counterexample: inserting over an existing key whose superseded value
holds a device-tracked proxy (identity 1, buffer of 50 bytes) succeeds, yet
the proxy is still tracked in the device registry and its 50 bytes are
still in the device tally — `__setitem__`/`__delitem__` only delete the
store entry and never remove the superseded value's proxies from the tier
registries. -/
theorem setitem_superseded_counterexample :
    (ProxifyHostFile.setitem (fun _ => 10) (fun _ => 50) (fun _ => true)
        (fun m _ => m) (fun m _ => m)
        ⟨[(7, [⟨1, [0], 5, none⟩])],
         ⟨ProxiesOnHost.init, ProxiesOnHost.init,
           ⟨[(1, ⟨1, [0], 5, none⟩)], 50, [(1, [0])], [(0, [1])]⟩,
           1000, 1000⟩⟩
        7 [⟨2, [], 0, some "pickle"⟩] 9).map
      (fun f2 => (f2.manager.dev.contains_proxy_id 1, f2.manager.dev.mem_usage))
      = some (true, 50) := by
  decide

/-- C9 amended: inserting over an existing key deletes the store's entry for
the superseded value first and only then discovers, tracks and stores the
new value; the tier registries and tallies are handed to discovery exactly
as they were — untracking of the superseded proxies is not performed by the
store operations (it is left to the proxies' own finalization, outside this
module). -/
theorem setitem_superseded_spec :
    ∀ (szProxy szBuf : Nat → Nat) (alive : Nat → Bool)
      (dd dh : ProxyManager → ProxyObject → ProxyManager)
      (f : ProxifyHostFile) (key : Nat) (value : List ProxyObject) (now : Nat),
    (lookupA f.store key).isSome = true →
    ProxifyHostFile.setitem szProxy szBuf alive dd dh f key value now
      = (ProxyManager.proxify szProxy szBuf alive dd dh f.manager value now).map
          (fun r => { store := setA (eraseA f.store key) key r.2,
                      manager := r.1 }) := by
  intro szP szB alive dd dh f key value now h
  unfold ProxifyHostFile.setitem ProxifyHostFile.delitem
  rw [if_pos h, if_pos h]
  simp only [Option.bind_eq_bind, Option.some_bind]
  cases hp : ProxyManager.proxify szP szB alive dd dh f.manager value now with
  | none => rfl
  | some r => rfl

/-- Witness for C9 (amended) at the counterexample's input. -/
theorem setitem_superseded_spec_witness :
    ProxifyHostFile.setitem (fun _ => 10) (fun _ => 50) (fun _ => true)
        (fun m _ => m) (fun m _ => m)
        ⟨[(7, [⟨1, [0], 5, none⟩])],
         ⟨ProxiesOnHost.init, ProxiesOnHost.init,
           ⟨[(1, ⟨1, [0], 5, none⟩)], 50, [(1, [0])], [(0, [1])]⟩,
           1000, 1000⟩⟩
        7 [⟨2, [], 0, some "pickle"⟩] 9
      = (ProxyManager.proxify (fun _ => 10) (fun _ => 50) (fun _ => true)
          (fun m _ => m) (fun m _ => m)
          ⟨ProxiesOnHost.init, ProxiesOnHost.init,
            ⟨[(1, ⟨1, [0], 5, none⟩)], 50, [(1, [0])], [(0, [1])]⟩,
            1000, 1000⟩
          [⟨2, [], 0, some "pickle"⟩] 9).map
          (fun r => { store := setA (eraseA [(7, [⟨1, [0], 5, none⟩])] 7) 7 r.2,
                      manager := r.1 }) :=
  setitem_superseded_spec (fun _ => 10) (fun _ => 50) (fun _ => true)
    (fun m _ => m) (fun m _ => m)
    ⟨[(7, [⟨1, [0], 5, none⟩])],
     ⟨ProxiesOnHost.init, ProxiesOnHost.init,
       ⟨[(1, ⟨1, [0], 5, none⟩)], 50, [(1, [0])], [(0, [1])]⟩,
       1000, 1000⟩⟩
    7 [⟨2, [], 0, some "pickle"⟩] 9 (by decide)

/-! ## Claim theorems: alias-safe device tally (C1) — helper lemmas -/

theorem dedupKeep_mem : ∀ (L seen : List Nat) (b : Nat),
    b ∈ dedupKeep L seen ↔ b ∈ L ∧ b ∉ seen := by
  intro L
  induction L with
  | nil => intro seen b; simp [dedupKeep]
  | cons x L ih =>
    intro seen b
    by_cases hx : x ∈ seen
    · rw [dedupKeep, if_pos hx, ih]
      constructor
      · rintro ⟨h1, h2⟩
        exact ⟨List.mem_cons_of_mem _ h1, h2⟩
      · rintro ⟨h1, h2⟩
        rcases List.mem_cons.mp h1 with rfl | h3
        · exact absurd hx h2
        · exact ⟨h3, h2⟩
    · rw [dedupKeep, if_neg hx]
      constructor
      · intro h
        rcases List.mem_cons.mp h with rfl | h2
        · exact ⟨List.mem_cons_self _ _, hx⟩
        · obtain ⟨h3, h4⟩ := (ih (x :: seen) b).mp h2
          exact ⟨List.mem_cons_of_mem _ h3,
            fun hb => h4 (List.mem_cons_of_mem _ hb)⟩
      · rintro ⟨h1, h2⟩
        rcases List.mem_cons.mp h1 with rfl | h3
        · exact List.mem_cons_self _ _
        · by_cases hbx : b = x
          · subst hbx
            exact List.mem_cons_self _ _
          · refine List.mem_cons_of_mem _ ((ih (x :: seen) b).mpr ⟨h3, ?_⟩)
            intro hb
            rcases List.mem_cons.mp hb with h4 | h4
            · exact hbx h4
            · exact h2 h4

theorem dedupKeep_nodup : ∀ (L seen : List Nat), (dedupKeep L seen).Nodup := by
  intro L
  induction L with
  | nil => intro seen; simp [dedupKeep]
  | cons x L ih =>
    intro seen
    by_cases hx : x ∈ seen
    · rw [dedupKeep, if_pos hx]
      exact ih seen
    · rw [dedupKeep, if_neg hx]
      refine List.nodup_cons.mpr ⟨?_, ih (x :: seen)⟩
      intro hmem
      exact ((dedupKeep_mem L (x :: seen) x).mp hmem).2 (List.mem_cons_self _ _)

theorem dedupKeep_snoc : ∀ (L seen : List Nat) (b : Nat),
    dedupKeep (L ++ [b]) seen
      = dedupKeep L seen ++ (if b ∈ seen ∨ b ∈ L then [] else [b]) := by
  intro L
  induction L with
  | nil =>
    intro seen b
    by_cases hb : b ∈ seen
    · simp [dedupKeep, hb]
    · simp [dedupKeep, hb]
  | cons x L ih =>
    intro seen b
    by_cases hx : x ∈ seen
    · rw [List.cons_append, dedupKeep, if_pos hx, dedupKeep, if_pos hx, ih]
      congr 1
      by_cases hb : b ∈ seen ∨ b ∈ L
      · rw [if_pos hb, if_pos (by
          rcases hb with h | h
          · exact Or.inl h
          · exact Or.inr (List.mem_cons_of_mem _ h))]
      · rw [if_neg hb, if_neg (by
          rintro (h | h)
          · exact hb (Or.inl h)
          · rcases List.mem_cons.mp h with rfl | h2
            · exact hb (Or.inl hx)
            · exact hb (Or.inr h2))]
    · rw [List.cons_append, dedupKeep, if_neg hx, dedupKeep, if_neg hx, ih,
        List.cons_append]
      congr 2
      by_cases hb : b ∈ x :: seen ∨ b ∈ L
      · rw [if_pos hb, if_pos (by
          rcases hb with h | h
          · rcases List.mem_cons.mp h with rfl | h2
            · exact Or.inr (List.mem_cons_self _ _)
            · exact Or.inl h2
          · exact Or.inr (List.mem_cons_of_mem _ h))]
      · rw [if_neg hb, if_neg (by
          rintro (h | h)
          · exact hb (Or.inl (List.mem_cons_of_mem _ h))
          · rcases List.mem_cons.mp h with rfl | h2
            · exact hb (Or.inl (List.mem_cons_self _ _))
            · exact hb (Or.inr h2))]

theorem lookupA_map_val {α β : Type} (g : Nat → α → β) (m : List (Nat × α))
    (k : Nat) :
    lookupA (m.map (fun bp => (bp.1, g bp.1 bp.2))) k
      = (lookupA m k).map (g k) := by
  induction m with
  | nil => simp [lookupA]
  | cons kv rest ih =>
    obtain ⟨k', v⟩ := kv
    by_cases hk : k' = k
    · subst hk
      simp [lookupA]
    · simp only [List.map_cons, lookupA, if_neg hk]
      exact ih

theorem lookupA_map_self {α : Type} (g : Nat → α) (L : List Nat) (k : Nat) :
    lookupA (L.map (fun x => (x, g x))) k
      = if k ∈ L then some (g k) else none := by
  induction L with
  | nil => simp [lookupA]
  | cons x L ih =>
    by_cases hx : x = k
    · subst hx
      simp [lookupA]
    · simp only [List.map_cons, lookupA, if_neg hx, ih, List.mem_cons]
      by_cases hk : k ∈ L
      · rw [if_pos hk, if_pos (Or.inr hk)]
      · rw [if_neg hk, if_neg (by
          rintro (rfl | h)
          · exact hx rfl
          · exact hk h)]

theorem setA_eq_of_lookup {α : Type} {m : List (Nat × α)} {k : Nat} {v : α}
    (hnd : (keysOf m).Nodup) (h : lookupA m k = some v) : setA m k v = m := by
  induction m with
  | nil => simp [lookupA] at h
  | cons kv rest ih =>
    obtain ⟨k', v'⟩ := kv
    rw [keysOf_cons] at hnd
    have hnd1 := List.nodup_cons.mp hnd
    by_cases hk : k' = k
    · subst hk
      simp only [lookupA, eq_self_iff_true, if_true, Option.some.injEq] at h
      subst h
      simp [setA]
    · simp only [lookupA, if_neg hk] at h
      simp only [setA, if_neg hk, List.cons.injEq, true_and]
      exact ih hnd1.2 h

theorem setA_append_left {α : Type} {l : List (Nat × α)} (r : List (Nat × α))
    {k : Nat} (v : α) (h : k ∈ keysOf l) :
    setA (l ++ r) k v = setA l k v ++ r := by
  induction l with
  | nil => simp [keysOf_nil] at h
  | cons kv rest ih =>
    obtain ⟨k', v'⟩ := kv
    by_cases hk : k' = k
    · subst hk
      simp [setA]
    · rw [keysOf_cons] at h
      rcases List.mem_cons.mp h with rfl | h2
      · exact absurd rfl hk
      · simp only [List.cons_append, setA, if_neg hk, List.cons.injEq, true_and]
        exact ih h2

theorem erase_eq_nil {l : List Nat} {a : Nat} (h : l.erase a = []) :
    l = [] ∨ l = [a] := by
  cases l with
  | nil => exact Or.inl rfl
  | cons x t =>
    by_cases hx : x = a
    · subst hx
      rw [List.erase_cons_head] at h
      exact Or.inr (by rw [h])
    · rw [List.erase_cons_tail (by simpa using hx)] at h
      simp at h

theorem sum_map_filter_split {α : Type} (f : α → Int) (P : α → Bool) :
    ∀ (l : List α),
    ((l.filter P).map f).sum + ((l.filter (fun a => !(P a))).map f).sum
      = (l.map f).sum := by
  intro l
  induction l with
  | nil => simp
  | cons x l ih =>
    cases hx : P x with
    | true =>
      simp [List.filter_cons, hx]
      omega
    | false =>
      simp [List.filter_cons, hx]
      omega

theorem keysOf_map_key {α : Type} (g : Nat → α) (L : List Nat) :
    keysOf (L.map (fun x => (x, g x))) = L := by
  induction L with
  | nil => rfl
  | cons x L ih => simp [keysOf_cons, ih]

theorem devMemAddStep_eq (szBuf : Nat → Nat) (pid : Nat)
    (M : ProxiesOnDevice) (b : Nat) :
    devMemAddStep szBuf pid M b
      = { proxy_id_to_proxy := M.proxy_id_to_proxy,
          mem_usage :=
            if ((lookupA M.dev_mem_to_proxy_ids b).getD []).length = 0
            then M.mem_usage + (szBuf b : Int) else M.mem_usage,
          proxy_id_to_dev_mems := setA M.proxy_id_to_dev_mems pid
            (if b ∈ (lookupA M.proxy_id_to_dev_mems pid).getD []
             then (lookupA M.proxy_id_to_dev_mems pid).getD []
             else (lookupA M.proxy_id_to_dev_mems pid).getD [] ++ [b]),
          dev_mem_to_proxy_ids := setA M.dev_mem_to_proxy_ids b
            (if pid ∈ (lookupA M.dev_mem_to_proxy_ids b).getD []
             then (lookupA M.dev_mem_to_proxy_ids b).getD []
             else (lookupA M.dev_mem_to_proxy_ids b).getD [] ++ [pid]) } := rfl

theorem mapped_congr (m : List (Nat × List Nat)) (done : List Nat)
    (b pid : Nat) (h : b ∉ keysOf m ∨ b ∈ done) :
    m.map (fun bp => (bp.1, if bp.1 ∈ done ++ [b] then bp.2 ++ [pid] else bp.2))
      = m.map (fun bp => (bp.1, if bp.1 ∈ done then bp.2 ++ [pid] else bp.2)) := by
  refine List.map_congr_left ?_
  intro bp hbp
  by_cases hk : bp.1 ∈ done
  · rw [if_pos hk, if_pos (List.mem_append_left _ hk)]
  · rw [if_neg hk, if_neg ?_]
    intro hcon
    rcases List.mem_append.mp hcon with h2 | h2
    · exact hk h2
    · rw [List.mem_singleton] at h2
      rcases h with h3 | h3
      · exact h3 (h2 ▸ mem_keysOf hbp)
      · exact hk (h2 ▸ h3)

theorem setA_upd_map (pid : Nat) :
    ∀ (m : List (Nat × List Nat)), (keysOf m).Nodup →
    ∀ (b : Nat) (psb : List Nat), lookupA m b = some psb →
    ∀ (done : List Nat), b ∉ done →
    setA (m.map (fun bp => (bp.1, if bp.1 ∈ done then bp.2 ++ [pid] else bp.2)))
        b (psb ++ [pid])
      = m.map (fun bp => (bp.1, if bp.1 ∈ done ++ [b] then bp.2 ++ [pid] else bp.2)) := by
  intro m
  induction m with
  | nil =>
    intro _ b psb hlook
    simp [lookupA] at hlook
  | cons kv rest ih =>
    intro hnd b psb hlook done hbd
    obtain ⟨k, v⟩ := kv
    rw [keysOf_cons] at hnd
    have hnd1 := List.nodup_cons.mp hnd
    by_cases hk : k = b
    · subst hk
      simp only [lookupA, eq_self_iff_true, if_true, Option.some.injEq] at hlook
      subst hlook
      simp only [List.map_cons]
      rw [show ((k, v).1, if (k, v).1 ∈ done then (k, v).2 ++ [pid]
            else (k, v).2) = (k, v) from by simp [hbd]]
      simp only [setA, eq_self_iff_true, if_true]
      rw [show ((k, v).1, if (k, v).1 ∈ done ++ [k] then (k, v).2 ++ [pid]
            else (k, v).2) = (k, v ++ [pid]) from by simp]
      rw [mapped_congr rest done k pid (Or.inl hnd1.1)]
    · simp only [lookupA, if_neg hk] at hlook
      simp only [List.map_cons, setA]
      rw [if_neg (by simpa using hk)]
      rw [ih hnd1.2 b psb hlook done hbd]
      simp only [List.cons.injEq, and_true]
      by_cases hkd : k ∈ done
      · rw [if_pos hkd, if_pos (List.mem_append_left _ hkd)]
      · rw [if_neg hkd, if_neg (by
          intro hcon
          rcases List.mem_append.mp hcon with h2 | h2
          · exact hkd h2
          · rw [List.mem_singleton] at h2
            exact hk h2)]

theorem devStateExt {a b : ProxiesOnDevice}
    (h1 : a.proxy_id_to_proxy = b.proxy_id_to_proxy)
    (h2 : a.mem_usage = b.mem_usage)
    (h3 : a.proxy_id_to_dev_mems = b.proxy_id_to_dev_mems)
    (h4 : a.dev_mem_to_proxy_ids = b.dev_mem_to_proxy_ids) : a = b := by
  cases a
  cases b
  cases h1
  cases h2
  cases h3
  cases h4
  rfl

theorem devMemAddStep_mid (szBuf : Nat → Nat) (pid : Nat) (s : ProxiesOnDevice)
    (hfresh : pid ∉ keysOf s.proxy_id_to_dev_mems)
    (hfreshps : ∀ b ps, (b, ps) ∈ s.dev_mem_to_proxy_ids → pid ∉ ps)
    (hne : ∀ b ps, (b, ps) ∈ s.dev_mem_to_proxy_ids → ps ≠ [])
    (hnd : (keysOf s.dev_mem_to_proxy_ids).Nodup)
    (done : List Nat) (b : Nat) :
    devMemAddStep szBuf pid (devAddMid szBuf s pid done) b
      = devAddMid szBuf s pid (done ++ [b]) := by
  have hkeysNews : ∀ x : Nat,
      x ∈ dedupKeep (done.filter
        (fun y => !decide (y ∈ keysOf s.dev_mem_to_proxy_ids))) [] ↔
      (x ∈ done ∧ x ∉ keysOf s.dev_mem_to_proxy_ids) := by
    intro x
    rw [dedupKeep_mem]
    simp [List.mem_filter]
  have hMdtp : (devAddMid szBuf s pid done).dev_mem_to_proxy_ids
      = s.dev_mem_to_proxy_ids.map
          (fun bp => (bp.1, if bp.1 ∈ done then bp.2 ++ [pid] else bp.2))
        ++ (dedupKeep (done.filter
            (fun y => !decide (y ∈ keysOf s.dev_mem_to_proxy_ids))) []).map
            (fun x => (x, [pid])) := rfl
  have hMptm : (devAddMid szBuf s pid done).proxy_id_to_dev_mems
      = s.proxy_id_to_dev_mems ++ [(pid, dedupKeep done [])] := rfl
  have hMmem : (devAddMid szBuf s pid done).mem_usage
      = s.mem_usage + ((dedupKeep (done.filter
          (fun y => !decide (y ∈ keysOf s.dev_mem_to_proxy_ids))) []).map
          (fun x => (szBuf x : Int))).sum := rfl
  have hkeysMdtp : keysOf ((devAddMid szBuf s pid done).dev_mem_to_proxy_ids)
      = keysOf s.dev_mem_to_proxy_ids
        ++ dedupKeep (done.filter
            (fun y => !decide (y ∈ keysOf s.dev_mem_to_proxy_ids))) [] := by
    rw [hMdtp, keysOf_append,
      keysOf_map_val (fun k v => if k ∈ done then v ++ [pid] else v),
      keysOf_map_key (fun _ => [pid])]
  have hndM : (keysOf ((devAddMid szBuf s pid done).dev_mem_to_proxy_ids)).Nodup := by
    rw [hkeysMdtp, List.nodup_append]
    exact ⟨hnd, dedupKeep_nodup _ _, fun a ha hb => ((hkeysNews a).mp hb).2 ha⟩
  have hlookP : lookupA ((devAddMid szBuf s pid done).proxy_id_to_dev_mems) pid
      = some (dedupKeep done []) := by
    rw [hMptm, lookupA_append_right _ hfresh]
    simp [lookupA]
  have hD : (if b ∈ dedupKeep done [] then dedupKeep done []
      else dedupKeep done [] ++ [b]) = dedupKeep (done ++ [b]) [] := by
    rw [dedupKeep_snoc]
    by_cases hb : b ∈ done
    · rw [if_pos ((dedupKeep_mem done [] b).mpr ⟨hb, List.not_mem_nil b⟩),
        if_pos (Or.inr hb), List.append_nil]
    · rw [if_neg (fun h => hb ((dedupKeep_mem done [] b).mp h).1),
        if_neg (by simp [hb])]
  have hptmGoal : setA ((devAddMid szBuf s pid done).proxy_id_to_dev_mems) pid
      (if b ∈ (lookupA ((devAddMid szBuf s pid done).proxy_id_to_dev_mems) pid).getD []
       then (lookupA ((devAddMid szBuf s pid done).proxy_id_to_dev_mems) pid).getD []
       else (lookupA ((devAddMid szBuf s pid done).proxy_id_to_dev_mems) pid).getD [] ++ [b])
      = s.proxy_id_to_dev_mems ++ [(pid, dedupKeep (done ++ [b]) [])] := by
    rw [hlookP]
    simp only [Option.getD_some]
    rw [hD, hMptm, setA_append_right _ _ hfresh]
    simp [setA]
  rw [devMemAddStep_eq]
  by_cases hbK : b ∈ keysOf s.dev_mem_to_proxy_ids
  · obtain ⟨psb, hpsb⟩ := Option.isSome_iff_exists.mp
      ((lookupA_isSome_iff _ _).mpr hbK)
    have hfilterA : (done ++ [b]).filter
        (fun y => !decide (y ∈ keysOf s.dev_mem_to_proxy_ids))
        = done.filter (fun y => !decide (y ∈ keysOf s.dev_mem_to_proxy_ids)) := by
      rw [List.filter_append]
      simp [List.filter_cons, hbK]
    have hlookD : lookupA ((devAddMid szBuf s pid done).dev_mem_to_proxy_ids) b
        = some (if b ∈ done then psb ++ [pid] else psb) := by
      rw [hMdtp]
      refine lookupA_append_left _ ?_
      rw [lookupA_map_val (fun k v => if k ∈ done then v ++ [pid] else v)
        s.dev_mem_to_proxy_ids b, hpsb]
      rfl
    by_cases hbd : b ∈ done
    · rw [if_pos hbd] at hlookD
      refine devStateExt rfl ?_ ?_ ?_
      · show (if ((lookupA ((devAddMid szBuf s pid done).dev_mem_to_proxy_ids) b).getD []).length = 0
            then (devAddMid szBuf s pid done).mem_usage + (szBuf b : Int)
            else (devAddMid szBuf s pid done).mem_usage)
          = (devAddMid szBuf s pid (done ++ [b])).mem_usage
        rw [hlookD]
        simp only [Option.getD_some, List.length_append, List.length_cons]
        rw [if_neg (by omega), hMmem]
        show _ = s.mem_usage + _
        rw [hfilterA]
      · exact hptmGoal
      · show setA ((devAddMid szBuf s pid done).dev_mem_to_proxy_ids) b
            (if pid ∈ (lookupA ((devAddMid szBuf s pid done).dev_mem_to_proxy_ids) b).getD []
             then (lookupA ((devAddMid szBuf s pid done).dev_mem_to_proxy_ids) b).getD []
             else (lookupA ((devAddMid szBuf s pid done).dev_mem_to_proxy_ids) b).getD [] ++ [pid])
          = (devAddMid szBuf s pid (done ++ [b])).dev_mem_to_proxy_ids
        rw [hlookD]
        simp only [Option.getD_some]
        rw [if_pos (List.mem_append_right _ (List.mem_singleton.mpr rfl))]
        rw [setA_eq_of_lookup hndM hlookD, hMdtp]
        show _ = s.dev_mem_to_proxy_ids.map
            (fun bp => (bp.1, if bp.1 ∈ done ++ [b] then bp.2 ++ [pid] else bp.2))
          ++ (dedupKeep ((done ++ [b]).filter
              (fun y => !decide (y ∈ keysOf s.dev_mem_to_proxy_ids))) []).map
              (fun x => (x, [pid]))
        rw [mapped_congr s.dev_mem_to_proxy_ids done b pid (Or.inr hbd), hfilterA]
    · rw [if_neg hbd] at hlookD
      have hpsbmem : (b, psb) ∈ s.dev_mem_to_proxy_ids := lookupA_mem hpsb
      have hpsbne : psb ≠ [] := hne _ _ hpsbmem
      have hpidn : pid ∉ psb := hfreshps _ _ hpsbmem
      refine devStateExt rfl ?_ ?_ ?_
      · show (if ((lookupA ((devAddMid szBuf s pid done).dev_mem_to_proxy_ids) b).getD []).length = 0
            then (devAddMid szBuf s pid done).mem_usage + (szBuf b : Int)
            else (devAddMid szBuf s pid done).mem_usage)
          = (devAddMid szBuf s pid (done ++ [b])).mem_usage
        rw [hlookD]
        simp only [Option.getD_some]
        rw [if_neg (fun h => hpsbne (List.length_eq_zero.mp h)), hMmem]
        show _ = s.mem_usage + _
        rw [hfilterA]
      · exact hptmGoal
      · show setA ((devAddMid szBuf s pid done).dev_mem_to_proxy_ids) b
            (if pid ∈ (lookupA ((devAddMid szBuf s pid done).dev_mem_to_proxy_ids) b).getD []
             then (lookupA ((devAddMid szBuf s pid done).dev_mem_to_proxy_ids) b).getD []
             else (lookupA ((devAddMid szBuf s pid done).dev_mem_to_proxy_ids) b).getD [] ++ [pid])
          = (devAddMid szBuf s pid (done ++ [b])).dev_mem_to_proxy_ids
        rw [hlookD]
        simp only [Option.getD_some]
        rw [if_neg hpidn, hMdtp]
        rw [setA_append_left _ _ (by
          rw [keysOf_map_val (fun k v => if k ∈ done then v ++ [pid] else v)]
          exact hbK)]
        rw [setA_upd_map pid s.dev_mem_to_proxy_ids hnd b psb hpsb done hbd]
        show _ = s.dev_mem_to_proxy_ids.map
            (fun bp => (bp.1, if bp.1 ∈ done ++ [b] then bp.2 ++ [pid] else bp.2))
          ++ (dedupKeep ((done ++ [b]).filter
              (fun y => !decide (y ∈ keysOf s.dev_mem_to_proxy_ids))) []).map
              (fun x => (x, [pid]))
        rw [hfilterA]
  · have hfb : (fun y => !decide (y ∈ keysOf s.dev_mem_to_proxy_ids)) b = true := by
      simp [hbK]
    have hfilterB : (done ++ [b]).filter
        (fun y => !decide (y ∈ keysOf s.dev_mem_to_proxy_ids))
        = done.filter (fun y => !decide (y ∈ keysOf s.dev_mem_to_proxy_ids))
          ++ [b] := by
      rw [List.filter_append]
      simp [List.filter_cons, hbK]
    have hkeysMapped : b ∉ keysOf (s.dev_mem_to_proxy_ids.map
        (fun bp => (bp.1, if bp.1 ∈ done then bp.2 ++ [pid] else bp.2))) := by
      rw [keysOf_map_val (fun k v => if k ∈ done then v ++ [pid] else v)]
      exact hbK
    by_cases hbd : b ∈ done
    · have hbnews : b ∈ dedupKeep (done.filter
          (fun y => !decide (y ∈ keysOf s.dev_mem_to_proxy_ids))) [] :=
        (hkeysNews b).mpr ⟨hbd, hbK⟩
      have hnewsB : dedupKeep ((done ++ [b]).filter
          (fun y => !decide (y ∈ keysOf s.dev_mem_to_proxy_ids))) []
          = dedupKeep (done.filter
              (fun y => !decide (y ∈ keysOf s.dev_mem_to_proxy_ids))) [] := by
        rw [hfilterB, dedupKeep_snoc,
          if_pos (Or.inr (List.mem_filter.mpr ⟨hbd, hfb⟩)), List.append_nil]
      have hlookD : lookupA ((devAddMid szBuf s pid done).dev_mem_to_proxy_ids) b
          = some [pid] := by
        rw [hMdtp, lookupA_append_right _ hkeysMapped,
          lookupA_map_self (fun _ => [pid]) _ b, if_pos hbnews]
      refine devStateExt rfl ?_ ?_ ?_
      · show (if ((lookupA ((devAddMid szBuf s pid done).dev_mem_to_proxy_ids) b).getD []).length = 0
            then (devAddMid szBuf s pid done).mem_usage + (szBuf b : Int)
            else (devAddMid szBuf s pid done).mem_usage)
          = (devAddMid szBuf s pid (done ++ [b])).mem_usage
        rw [hlookD]
        simp only [Option.getD_some, List.length_cons]
        rw [if_neg (by omega), hMmem]
        show _ = s.mem_usage + _
        rw [hnewsB]
      · exact hptmGoal
      · show setA ((devAddMid szBuf s pid done).dev_mem_to_proxy_ids) b
            (if pid ∈ (lookupA ((devAddMid szBuf s pid done).dev_mem_to_proxy_ids) b).getD []
             then (lookupA ((devAddMid szBuf s pid done).dev_mem_to_proxy_ids) b).getD []
             else (lookupA ((devAddMid szBuf s pid done).dev_mem_to_proxy_ids) b).getD [] ++ [pid])
          = (devAddMid szBuf s pid (done ++ [b])).dev_mem_to_proxy_ids
        rw [hlookD]
        simp only [Option.getD_some]
        rw [if_pos (List.mem_singleton.mpr rfl)]
        rw [setA_eq_of_lookup hndM hlookD, hMdtp]
        show _ = s.dev_mem_to_proxy_ids.map
            (fun bp => (bp.1, if bp.1 ∈ done ++ [b] then bp.2 ++ [pid] else bp.2))
          ++ (dedupKeep ((done ++ [b]).filter
              (fun y => !decide (y ∈ keysOf s.dev_mem_to_proxy_ids))) []).map
              (fun x => (x, [pid]))
        rw [mapped_congr s.dev_mem_to_proxy_ids done b pid (Or.inr hbd), hnewsB]
    · have hbnews : b ∉ dedupKeep (done.filter
          (fun y => !decide (y ∈ keysOf s.dev_mem_to_proxy_ids))) [] := by
        intro h
        exact hbd ((hkeysNews b).mp h).1
      have hnewsC : dedupKeep ((done ++ [b]).filter
          (fun y => !decide (y ∈ keysOf s.dev_mem_to_proxy_ids))) []
          = dedupKeep (done.filter
              (fun y => !decide (y ∈ keysOf s.dev_mem_to_proxy_ids))) []
            ++ [b] := by
        rw [hfilterB, dedupKeep_snoc, if_neg (by
          rintro (h | h)
          · exact List.not_mem_nil b h
          · exact hbd (List.mem_filter.mp h).1)]
      have hlookD : lookupA ((devAddMid szBuf s pid done).dev_mem_to_proxy_ids) b
          = none := by
        rw [hMdtp, lookupA_append_right _ hkeysMapped,
          lookupA_map_self (fun _ => [pid]) _ b, if_neg hbnews]
      refine devStateExt rfl ?_ ?_ ?_
      · show (if ((lookupA ((devAddMid szBuf s pid done).dev_mem_to_proxy_ids) b).getD []).length = 0
            then (devAddMid szBuf s pid done).mem_usage + (szBuf b : Int)
            else (devAddMid szBuf s pid done).mem_usage)
          = (devAddMid szBuf s pid (done ++ [b])).mem_usage
        rw [hlookD]
        rw [if_pos (show ((none : Option (List Nat)).getD []).length = 0 from rfl),
          hMmem]
        show _ = s.mem_usage + ((dedupKeep ((done ++ [b]).filter
            (fun y => !decide (y ∈ keysOf s.dev_mem_to_proxy_ids))) []).map
            (fun x => (szBuf x : Int))).sum
        rw [hnewsC, List.map_append, List.sum_append]
        simp only [List.map_cons, List.map_nil, List.sum_cons, List.sum_nil]
        omega
      · exact hptmGoal
      · show setA ((devAddMid szBuf s pid done).dev_mem_to_proxy_ids) b
            (if pid ∈ (lookupA ((devAddMid szBuf s pid done).dev_mem_to_proxy_ids) b).getD []
             then (lookupA ((devAddMid szBuf s pid done).dev_mem_to_proxy_ids) b).getD []
             else (lookupA ((devAddMid szBuf s pid done).dev_mem_to_proxy_ids) b).getD [] ++ [pid])
          = (devAddMid szBuf s pid (done ++ [b])).dev_mem_to_proxy_ids
        rw [hlookD]
        simp only [Option.getD_none]
        rw [if_neg (List.not_mem_nil pid), List.nil_append]
        rw [setA_of_notMem _ (by
          rw [hkeysMdtp]
          intro h
          rcases List.mem_append.mp h with h2 | h2
          · exact hbK h2
          · exact hbnews h2)]
        rw [hMdtp]
        show _ = s.dev_mem_to_proxy_ids.map
            (fun bp => (bp.1, if bp.1 ∈ done ++ [b] then bp.2 ++ [pid] else bp.2))
          ++ (dedupKeep ((done ++ [b]).filter
              (fun y => !decide (y ∈ keysOf s.dev_mem_to_proxy_ids))) []).map
              (fun x => (x, [pid]))
        rw [mapped_congr s.dev_mem_to_proxy_ids done b pid (Or.inl hbK), hnewsC,
          List.map_append, ← List.append_assoc]
        rfl

theorem devAddMid_nil (szBuf : Nat → Nat) (s : ProxiesOnDevice) (pid : Nat) :
    devAddMid szBuf s pid []
      = { s with proxy_id_to_dev_mems := s.proxy_id_to_dev_mems ++ [(pid, [])] } := by
  refine devStateExt rfl ?_ rfl ?_
  · show s.mem_usage + (([] : List Nat).map (fun x => (szBuf x : Int))).sum = s.mem_usage
    simp
  · show s.dev_mem_to_proxy_ids.map
        (fun bp => (bp.1, if bp.1 ∈ ([] : List Nat) then bp.2 ++ [pid] else bp.2))
        ++ ([] : List Nat).map (fun x => (x, [pid]))
      = s.dev_mem_to_proxy_ids
    simp

theorem devAddFold (szBuf : Nat → Nat) (pid : Nat) (s : ProxiesOnDevice)
    (hfresh : pid ∉ keysOf s.proxy_id_to_dev_mems)
    (hfreshps : ∀ b ps, (b, ps) ∈ s.dev_mem_to_proxy_ids → pid ∉ ps)
    (hne : ∀ b ps, (b, ps) ∈ s.dev_mem_to_proxy_ids → ps ≠ [])
    (hnd : (keysOf s.dev_mem_to_proxy_ids).Nodup) :
    ∀ L : List Nat,
    L.foldl (devMemAddStep szBuf pid)
        { s with proxy_id_to_dev_mems := s.proxy_id_to_dev_mems ++ [(pid, [])] }
      = devAddMid szBuf s pid L := by
  intro L
  induction L using List.reverseRecOn with
  | nil =>
    simp only [List.foldl_nil]
    exact (devAddMid_nil szBuf s pid).symm
  | append_singleton L b ih =>
    rw [List.foldl_append, List.foldl_cons, List.foldl_nil, ih,
      devMemAddStep_mid szBuf pid s hfresh hfreshps hne hnd L b]

theorem dev_mem_usage_add_spec (szBuf : Nat → Nat) (s : ProxiesOnDevice)
    (p : ProxyObject)
    (hfresh : p.pid ∉ keysOf s.proxy_id_to_dev_mems)
    (hfreshps : ∀ b ps, (b, ps) ∈ s.dev_mem_to_proxy_ids → p.pid ∉ ps)
    (hne : ∀ b ps, (b, ps) ∈ s.dev_mem_to_proxy_ids → ps ≠ [])
    (hnd : (keysOf s.dev_mem_to_proxy_ids).Nodup) :
    ProxiesOnDevice.mem_usage_add szBuf s p
      = some (devAddMid szBuf s p.pid p.devMems) := by
  unfold ProxiesOnDevice.mem_usage_add
  rw [if_neg (by
    rw [Bool.not_eq_true]
    rw [← Bool.not_eq_true]
    intro h
    exact hfresh ((lookupA_isSome_iff _ _).mp h))]
  rw [devAddFold szBuf p.pid s hfresh hfreshps hne hnd p.devMems]

theorem dev_add_spec (szBuf : Nat → Nat) (s : ProxiesOnDevice) (p : ProxyObject)
    (hc : s.contains_proxy_id p.pid = false)
    (hfresh : p.pid ∉ keysOf s.proxy_id_to_dev_mems)
    (hfreshps : ∀ b ps, (b, ps) ∈ s.dev_mem_to_proxy_ids → p.pid ∉ ps)
    (hne : ∀ b ps, (b, ps) ∈ s.dev_mem_to_proxy_ids → ps ≠ [])
    (hnd : (keysOf s.dev_mem_to_proxy_ids).Nodup) :
    ProxiesOnDevice.add szBuf s p
      = some (devAddMid szBuf
          { s with proxy_id_to_proxy := s.proxy_id_to_proxy ++ [(p.pid, p)] }
          p.pid p.devMems) := by
  unfold ProxiesOnDevice.add
  rw [if_neg (by rw [hc]; exact Bool.false_ne_true)]
  exact dev_mem_usage_add_spec szBuf _ p hfresh hfreshps hne hnd


theorem dre_fst {pid : Nat} {done : List Nat} {bp w : Nat × List Nat}
    (h : devRemoveEntry pid done bp = some w) :
    w.1 = bp.1 ∧ (w.2 = bp.2 ∨ w.2 = bp.2.erase pid) := by
  unfold devRemoveEntry at h
  split at h
  · split at h
    · cases h
    · cases h
      exact ⟨rfl, Or.inr rfl⟩
  · cases h
    exact ⟨rfl, Or.inl rfl⟩

theorem dre_ne_key {pid : Nat} {done : List Nat} {b : Nat}
    (bp : Nat × List Nat) (h : bp.1 ≠ b) :
    devRemoveEntry pid (done ++ [b]) bp = devRemoveEntry pid done bp := by
  unfold devRemoveEntry
  by_cases hk : bp.1 ∈ done
  · rw [if_pos hk, if_pos (List.mem_append_left _ hk)]
  · rw [if_neg hk, if_neg (by
      intro hcon
      rcases List.mem_append.mp hcon with h2 | h2
      · exact hk h2
      · exact h (List.mem_singleton.mp h2))]

theorem filterMap_congr_fn {α β : Type} (f g : α → Option β) :
    ∀ (l : List α), (∀ a ∈ l, f a = g a) → l.filterMap f = l.filterMap g := by
  intro l
  induction l with
  | nil => intro _; rfl
  | cons x l ih =>
    intro h
    rw [List.filterMap_cons, List.filterMap_cons, h x (List.mem_cons_self _ _),
      ih (fun a ha => h a (List.mem_cons_of_mem _ ha))]

theorem filterMap_dre_lookup (pid : Nat) (done : List Nat) :
    ∀ (m : List (Nat × List Nat)), (keysOf m).Nodup →
    ∀ (b : Nat) (psb : List Nat), lookupA m b = some psb → b ∉ done →
    lookupA (m.filterMap (devRemoveEntry pid done)) b = some psb := by
  intro m
  induction m with
  | nil =>
    intro _ b psb hlook
    simp [lookupA] at hlook
  | cons kv rest ih =>
    intro hnd b psb hlook hbd
    obtain ⟨k, v⟩ := kv
    rw [keysOf_cons] at hnd
    have hnd1 := List.nodup_cons.mp hnd
    by_cases hk : k = b
    · subst hk
      simp only [lookupA, eq_self_iff_true, if_true, Option.some.injEq] at hlook
      subst hlook
      rw [List.filterMap_cons,
        show devRemoveEntry pid done (k, v) = some (k, v) from by
          unfold devRemoveEntry
          rw [if_neg (by simpa using hbd)]]
      simp [lookupA]
    · simp only [lookupA, if_neg hk] at hlook
      rw [List.filterMap_cons]
      cases hd : devRemoveEntry pid done (k, v) with
      | none => exact ih hnd1.2 b psb hlook hbd
      | some w =>
        obtain ⟨w1, w2⟩ := w
        have hw : w1 = k := (dre_fst hd).1
        subst hw
        simp only [lookupA, if_neg hk]
        exact ih hnd1.2 b psb hlook hbd

theorem filterMap_dre_snoc (pid : Nat) (done : List Nat) (b : Nat)
    (hbd : b ∉ done) :
    ∀ (m : List (Nat × List Nat)), (keysOf m).Nodup →
    ∀ psb, lookupA m b = some psb →
    m.filterMap (devRemoveEntry pid (done ++ [b]))
      = (if psb.erase pid = []
         then eraseA (m.filterMap (devRemoveEntry pid done)) b
         else setA (m.filterMap (devRemoveEntry pid done)) b (psb.erase pid)) := by
  intro m
  induction m with
  | nil =>
    intro _ psb hlook
    simp [lookupA] at hlook
  | cons kv rest ih =>
    intro hnd psb hlook
    obtain ⟨k, v⟩ := kv
    rw [keysOf_cons] at hnd
    have hnd1 := List.nodup_cons.mp hnd
    by_cases hk : k = b
    · subst hk
      simp only [lookupA, eq_self_iff_true, if_true, Option.some.injEq] at hlook
      subst hlook
      have hrest : rest.filterMap (devRemoveEntry pid (done ++ [k]))
          = rest.filterMap (devRemoveEntry pid done) := by
        refine filterMap_congr_fn _ _ rest ?_
        intro bp hbp
        refine dre_ne_key bp ?_
        intro hcon
        have hmem : bp.1 ∈ keysOf rest := mem_keysOf hbp
        rw [hcon] at hmem
        exact hnd1.1 hmem
      rw [List.filterMap_cons, List.filterMap_cons,
        show devRemoveEntry pid done (k, v) = some (k, v) from by
          unfold devRemoveEntry
          rw [if_neg (by simpa using hbd)],
        hrest]
      by_cases hemp : v.erase pid = []
      · rw [show devRemoveEntry pid (done ++ [k]) (k, v) = none from by
          unfold devRemoveEntry
          rw [if_pos (List.mem_append_right _ (List.mem_singleton.mpr rfl))]
          show (if (k, v).2.erase pid = [] then none
            else some ((k, v).1, (k, v).2.erase pid)) = none
          rw [if_pos hemp]]
        rw [if_pos hemp]
        simp [eraseA]
      · rw [show devRemoveEntry pid (done ++ [k]) (k, v)
            = some (k, v.erase pid) from by
          unfold devRemoveEntry
          rw [if_pos (List.mem_append_right _ (List.mem_singleton.mpr rfl))]
          show (if (k, v).2.erase pid = [] then none
            else some ((k, v).1, (k, v).2.erase pid)) = some (k, v.erase pid)
          rw [if_neg hemp]]
        rw [if_neg hemp]
        simp [setA]
    · simp only [lookupA, if_neg hk] at hlook
      have hih := ih hnd1.2 psb hlook
      rw [List.filterMap_cons, List.filterMap_cons,
        dre_ne_key (k, v) (by simpa using hk), hih]
      cases hd : devRemoveEntry pid done (k, v) with
      | none =>
        dsimp only
      | some w =>
        obtain ⟨w1, w2⟩ := w
        have hw : w1 = k := (dre_fst hd).1
        have hk2 : ¬ w1 = b := by rw [hw]; exact hk
        dsimp only
        by_cases hemp : psb.erase pid = []
        · rw [if_pos hemp]
          simp only [eraseA]
          rw [if_neg hk2]
          rw [if_pos hemp]
        · rw [if_neg hemp]
          simp only [setA]
          rw [if_neg hk2]
          rw [if_neg hemp]

theorem sum_filter_dre_snoc (szBuf : Nat → Nat) (pid : Nat) (done : List Nat)
    (b : Nat) (hbd : b ∉ done) :
    ∀ (m : List (Nat × List Nat)), (keysOf m).Nodup →
    ∀ psb, lookupA m b = some psb →
    ((m.filter (fun bp => decide (bp.1 ∈ done ++ [b])
        && (bp.2.erase pid).isEmpty)).map (fun bp => (szBuf bp.1 : Int))).sum
      = ((m.filter (fun bp => decide (bp.1 ∈ done)
          && (bp.2.erase pid).isEmpty)).map (fun bp => (szBuf bp.1 : Int))).sum
        + (if (psb.erase pid).isEmpty then (szBuf b : Int) else 0) := by
  intro m
  induction m with
  | nil =>
    intro _ psb hlook
    simp [lookupA] at hlook
  | cons kv rest ih =>
    intro hnd psb hlook
    obtain ⟨k, v⟩ := kv
    rw [keysOf_cons] at hnd
    have hnd1 := List.nodup_cons.mp hnd
    simp only [List.filter_cons]
    by_cases hk : k = b
    · subst hk
      simp only [lookupA, eq_self_iff_true, if_true, Option.some.injEq] at hlook
      subst hlook
      have hrest : rest.filter (fun bp => decide (bp.1 ∈ done ++ [k])
            && (bp.2.erase pid).isEmpty)
          = rest.filter (fun bp => decide (bp.1 ∈ done)
            && (bp.2.erase pid).isEmpty) := by
        refine List.filter_congr ?_
        intro bp hbp
        have hne2 : bp.1 ≠ k := by
          intro hcon
          have hm : bp.1 ∈ keysOf rest := mem_keysOf hbp
          rw [hcon] at hm
          exact hnd1.1 hm
        congr 1
        simp only [decide_eq_decide, List.mem_append, List.mem_singleton]
        constructor
        · rintro (h | h)
          · exact h
          · exact absurd h hne2
        · exact Or.inl
      by_cases hemp : (v.erase pid).isEmpty = true
      · rw [if_pos (show (decide ((k, v).1 ∈ done ++ [k])
            && ((k, v).2.erase pid).isEmpty) = true from by simp [hemp])]
        rw [if_neg (show ¬ (decide ((k, v).1 ∈ done)
            && ((k, v).2.erase pid).isEmpty) = true from by simp [hbd])]
        rw [hrest, if_pos hemp]
        simp only [List.map_cons, List.sum_cons]
        omega
      · have hemp2 : (v.erase pid).isEmpty = false := by
          simpa using hemp
        rw [if_neg (show ¬ (decide ((k, v).1 ∈ done ++ [k])
            && ((k, v).2.erase pid).isEmpty) = true from by simp [hemp2])]
        rw [if_neg (show ¬ (decide ((k, v).1 ∈ done)
            && ((k, v).2.erase pid).isEmpty) = true from by simp [hemp2])]
        rw [hrest, if_neg (by rw [hemp2]; exact Bool.false_ne_true)]
        omega
    · simp only [lookupA, if_neg hk] at hlook
      have hih := ih hnd1.2 psb hlook
      have hcond : (decide ((k, v).1 ∈ done ++ [b])
            && ((k, v).2.erase pid).isEmpty)
          = (decide ((k, v).1 ∈ done) && ((k, v).2.erase pid).isEmpty) := by
        congr 1
        simp only [decide_eq_decide, List.mem_append, List.mem_singleton]
        constructor
        · rintro (h | h)
          · exact h
          · exact absurd h hk
        · exact Or.inl
      rw [hcond]
      by_cases hc : (decide ((k, v).1 ∈ done)
          && ((k, v).2.erase pid).isEmpty) = true
      · rw [if_pos hc, if_pos hc]
        simp only [List.map_cons, List.sum_cons]
        omega
      · rw [if_neg hc, if_neg hc]
        omega

theorem devMemRemoveStep_eq (szBuf : Nat → Nat) (pid : Nat)
    (M : ProxiesOnDevice) (b : Nat) :
    devMemRemoveStep szBuf pid M b
      = (if pid ∈ (lookupA M.dev_mem_to_proxy_ids b).getD [] then
          (if (((lookupA M.dev_mem_to_proxy_ids b).getD []).erase pid).length = 0
           then some { M with
              dev_mem_to_proxy_ids := eraseA M.dev_mem_to_proxy_ids b,
              mem_usage := M.mem_usage - (szBuf b : Int) }
           else some { M with
              dev_mem_to_proxy_ids := setA M.dev_mem_to_proxy_ids b
                (((lookupA M.dev_mem_to_proxy_ids b).getD []).erase pid) })
         else none) := rfl

theorem devRemoveMid_nil (szBuf : Nat → Nat) (s : ProxiesOnDevice) (pid : Nat) :
    devRemoveMid szBuf s pid [] = s := by
  refine devStateExt rfl ?_ rfl ?_
  · show s.mem_usage - ((s.dev_mem_to_proxy_ids.filter
        (fun bp => decide (bp.1 ∈ ([] : List Nat))
          && (bp.2.erase pid).isEmpty)).map
        (fun bp => (szBuf bp.1 : Int))).sum = s.mem_usage
    simp
  · show s.dev_mem_to_proxy_ids.filterMap (devRemoveEntry pid [])
      = s.dev_mem_to_proxy_ids
    rw [filterMap_congr_fn (devRemoveEntry pid []) some _ (fun bp _ => by
      unfold devRemoveEntry
      rw [if_neg (List.not_mem_nil bp.1)])]
    exact List.filterMap_some _

theorem devMemRemoveStep_mid (szBuf : Nat → Nat) (pid : Nat)
    (s : ProxiesOnDevice)
    (hnd : (keysOf s.dev_mem_to_proxy_ids).Nodup)
    (done : List Nat) (b : Nat) (hbd : b ∉ done)
    (psb : List Nat) (hlook : lookupA s.dev_mem_to_proxy_ids b = some psb)
    (hpid : pid ∈ psb) :
    devMemRemoveStep szBuf pid (devRemoveMid szBuf s pid done) b
      = some (devRemoveMid szBuf s pid (done ++ [b])) := by
  have hMdtp : (devRemoveMid szBuf s pid done).dev_mem_to_proxy_ids
      = s.dev_mem_to_proxy_ids.filterMap (devRemoveEntry pid done) := rfl
  have hMmem : (devRemoveMid szBuf s pid done).mem_usage
      = s.mem_usage - ((s.dev_mem_to_proxy_ids.filter
          (fun bp => decide (bp.1 ∈ done) && (bp.2.erase pid).isEmpty)).map
          (fun bp => (szBuf bp.1 : Int))).sum := rfl
  have hlookM : lookupA ((devRemoveMid szBuf s pid done).dev_mem_to_proxy_ids) b
      = some psb := by
    rw [hMdtp]
    exact filterMap_dre_lookup pid done s.dev_mem_to_proxy_ids hnd b psb hlook hbd
  rw [devMemRemoveStep_eq, hlookM]
  simp only [Option.getD_some]
  rw [if_pos hpid]
  by_cases hemp : psb.erase pid = []
  · rw [if_pos (by rw [hemp]; rfl)]
    refine congrArg some (devStateExt rfl ?_ rfl ?_)
    · show (devRemoveMid szBuf s pid done).mem_usage - (szBuf b : Int)
        = (devRemoveMid szBuf s pid (done ++ [b])).mem_usage
      rw [hMmem]
      show _ = s.mem_usage - ((s.dev_mem_to_proxy_ids.filter
          (fun bp => decide (bp.1 ∈ done ++ [b]) && (bp.2.erase pid).isEmpty)).map
          (fun bp => (szBuf bp.1 : Int))).sum
      rw [sum_filter_dre_snoc szBuf pid done b hbd s.dev_mem_to_proxy_ids hnd
        psb hlook]
      rw [if_pos (by rw [hemp]; rfl)]
      omega
    · show eraseA ((devRemoveMid szBuf s pid done).dev_mem_to_proxy_ids) b
        = (devRemoveMid szBuf s pid (done ++ [b])).dev_mem_to_proxy_ids
      rw [hMdtp]
      show _ = s.dev_mem_to_proxy_ids.filterMap (devRemoveEntry pid (done ++ [b]))
      rw [filterMap_dre_snoc pid done b hbd s.dev_mem_to_proxy_ids hnd psb hlook,
        if_pos hemp]
  · rw [if_neg (by
      intro h
      exact hemp (List.length_eq_zero.mp h))]
    refine congrArg some (devStateExt rfl ?_ rfl ?_)
    · show (devRemoveMid szBuf s pid done).mem_usage
        = (devRemoveMid szBuf s pid (done ++ [b])).mem_usage
      rw [hMmem]
      show _ = s.mem_usage - ((s.dev_mem_to_proxy_ids.filter
          (fun bp => decide (bp.1 ∈ done ++ [b]) && (bp.2.erase pid).isEmpty)).map
          (fun bp => (szBuf bp.1 : Int))).sum
      rw [sum_filter_dre_snoc szBuf pid done b hbd s.dev_mem_to_proxy_ids hnd
        psb hlook]
      rw [if_neg (by
        intro h
        exact hemp (List.isEmpty_iff.mp h))]
      omega
    · show setA ((devRemoveMid szBuf s pid done).dev_mem_to_proxy_ids) b
          (psb.erase pid)
        = (devRemoveMid szBuf s pid (done ++ [b])).dev_mem_to_proxy_ids
      rw [hMdtp]
      show _ = s.dev_mem_to_proxy_ids.filterMap (devRemoveEntry pid (done ++ [b]))
      rw [filterMap_dre_snoc pid done b hbd s.dev_mem_to_proxy_ids hnd psb hlook,
        if_neg hemp]

theorem devRemoveFoldAux (szBuf : Nat → Nat) (pid : Nat) (s : ProxiesOnDevice)
    (hnd : (keysOf s.dev_mem_to_proxy_ids).Nodup) :
    ∀ (rest done : List Nat), (done ++ rest).Nodup →
    (∀ b ∈ rest, ∃ psb, lookupA s.dev_mem_to_proxy_ids b = some psb ∧ pid ∈ psb) →
    rest.foldlM (devMemRemoveStep szBuf pid) (devRemoveMid szBuf s pid done)
      = some (devRemoveMid szBuf s pid (done ++ rest)) := by
  intro rest
  induction rest with
  | nil =>
    intro done _ _
    rw [List.append_nil]
    rfl
  | cons b rest' ih =>
    intro done hnodup hlooks
    have hbd : b ∉ done := by
      intro hcon
      rw [List.nodup_append] at hnodup
      exact hnodup.2.2 hcon (List.mem_cons_self _ _)
    obtain ⟨psb, hlook, hpid⟩ := hlooks b (List.mem_cons_self _ _)
    rw [List.foldlM_cons,
      devMemRemoveStep_mid szBuf pid s hnd done b hbd psb hlook hpid]
    simp only [Option.bind_eq_bind, Option.some_bind]
    have hre : (done ++ [b]) ++ rest' = done ++ b :: rest' := by
      rw [List.append_assoc]
      rfl
    have := ih (done ++ [b]) (by rw [hre]; exact hnodup)
      (fun x hx => hlooks x (List.mem_cons_of_mem _ hx))
    rw [hre] at this
    exact this

theorem all_eq_singleton {ps : List Nat} {a : Nat}
    (hall : ∀ x ∈ ps, x = a) (hne : ps ≠ []) (hnd : ps.Nodup) : ps = [a] := by
  cases ps with
  | nil => exact absurd rfl hne
  | cons x t =>
    have hx : x = a := hall x (List.mem_cons_self _ _)
    subst hx
    cases t with
    | nil => rfl
    | cons y t2 =>
      have hy : y = x := hall y (List.mem_cons_of_mem _ (List.mem_cons_self _ _))
      rw [List.nodup_cons] at hnd
      exact absurd (hy ▸ List.mem_cons_self y t2) hnd.1

theorem dev_remove_spec (szBuf : Nat → Nat) (s : ProxiesOnDevice)
    (p : ProxyObject) (inv : DevInv szBuf s)
    (hc : s.contains_proxy_id p.pid = true) :
    ∃ M, lookupA s.proxy_id_to_dev_mems p.pid = some M ∧
      ProxiesOnDevice.remove szBuf s p
        = some (devRemoveMid szBuf
            { s with proxy_id_to_proxy := eraseA s.proxy_id_to_proxy p.pid,
                     proxy_id_to_dev_mems := eraseA s.proxy_id_to_dev_mems p.pid }
            p.pid M, false) := by
  have hkeys : p.pid ∈ keysOf s.proxy_id_to_proxy := (lookupA_isSome_iff _ _).mp hc
  have hkeysPtm : p.pid ∈ keysOf s.proxy_id_to_dev_mems := by
    rw [← inv.ppKeys]
    exact hkeys
  obtain ⟨M, hM⟩ := Option.isSome_iff_exists.mp
    ((lookupA_isSome_iff _ _).mpr hkeysPtm)
  refine ⟨M, hM, ?_⟩
  have hMem : (p.pid, M) ∈ s.proxy_id_to_dev_mems := lookupA_mem hM
  have hMnodup : M.Nodup := inv.memsNodup _ _ hMem
  have hfold : M.foldlM (devMemRemoveStep szBuf p.pid)
      (devRemoveMid szBuf
        { s with proxy_id_to_proxy := eraseA s.proxy_id_to_proxy p.pid,
                 proxy_id_to_dev_mems := eraseA s.proxy_id_to_dev_mems p.pid }
        p.pid [])
      = some (devRemoveMid szBuf
          { s with proxy_id_to_proxy := eraseA s.proxy_id_to_proxy p.pid,
                   proxy_id_to_dev_mems := eraseA s.proxy_id_to_dev_mems p.pid }
          p.pid M) := by
    have := devRemoveFoldAux szBuf p.pid
      { s with proxy_id_to_proxy := eraseA s.proxy_id_to_proxy p.pid,
               proxy_id_to_dev_mems := eraseA s.proxy_id_to_dev_mems p.pid }
      inv.dtpNodup M [] (by simpa using hMnodup) (fun b hb => by
        obtain ⟨ps, hps, hpid⟩ := inv.memsSub p.pid M b hMem hb
        exact ⟨ps, mem_lookupA inv.dtpNodup hps, hpid⟩)
    simpa using this
  have hM2 : lookupA
      ({ s with proxy_id_to_proxy := eraseA s.proxy_id_to_proxy p.pid }
        : ProxiesOnDevice).proxy_id_to_dev_mems p.pid = some M := hM
  have hmr : ProxiesOnDevice.mem_usage_remove szBuf
      { s with proxy_id_to_proxy := eraseA s.proxy_id_to_proxy p.pid } p
      = some (devRemoveMid szBuf
          { s with proxy_id_to_proxy := eraseA s.proxy_id_to_proxy p.pid,
                   proxy_id_to_dev_mems := eraseA s.proxy_id_to_dev_mems p.pid }
          p.pid M) := by
    simp only [ProxiesOnDevice.mem_usage_remove, Option.bind_eq_bind]
    rw [hM2]
    simp only [Option.some_bind]
    rw [← hfold, devRemoveMid_nil]
  have hno : ¬ ((devRemoveMid szBuf
      { s with proxy_id_to_proxy := eraseA s.proxy_id_to_proxy p.pid,
               proxy_id_to_dev_mems := eraseA s.proxy_id_to_dev_mems p.pid }
      p.pid M).proxy_id_to_proxy.length = 0 ∧
      (devRemoveMid szBuf
      { s with proxy_id_to_proxy := eraseA s.proxy_id_to_proxy p.pid,
               proxy_id_to_dev_mems := eraseA s.proxy_id_to_dev_mems p.pid }
      p.pid M).mem_usage ≠ 0) := by
    rintro ⟨hlen, hmem0⟩
    have hppnil : eraseA s.proxy_id_to_proxy p.pid = [] :=
      List.length_eq_zero.mp hlen
    have h1 : (keysOf s.proxy_id_to_proxy).erase p.pid = [] := by
      rw [← keysOf_eraseA, hppnil]
      rfl
    have hsingle : keysOf s.proxy_id_to_proxy = [p.pid] := by
      rcases erase_eq_nil h1 with h2 | h2
      · rw [h2] at hkeys
        exact absurd hkeys (List.not_mem_nil _)
      · exact h2
    have hsinglePtm : keysOf s.proxy_id_to_dev_mems = [p.pid] := by
      rw [← inv.ppKeys]
      exact hsingle
    have hfilter_all : ∀ bp ∈ s.dev_mem_to_proxy_ids,
        (decide (bp.1 ∈ M) && (bp.2.erase p.pid).isEmpty) = true := by
      intro bp hbp
      obtain ⟨b, ps⟩ := bp
      have hps_ne := inv.psNonempty _ _ hbp
      have hall : ∀ x ∈ ps, x = p.pid := by
        intro x hx
        obtain ⟨mems, hmem2, _⟩ := inv.psSub _ _ _ hbp hx
        have hxk : x ∈ keysOf s.proxy_id_to_dev_mems := mem_keysOf hmem2
        rw [hsinglePtm] at hxk
        exact List.mem_singleton.mp hxk
      have hpidps : p.pid ∈ ps := by
        obtain ⟨x, hx⟩ := List.exists_mem_of_ne_nil ps hps_ne
        rw [← hall x hx]
        exact hx
      have hps_eq : ps = [p.pid] :=
        all_eq_singleton hall hps_ne (inv.psNodup _ _ hbp)
      have hbM : b ∈ M := by
        obtain ⟨mems, hmem2, hbmem⟩ := inv.psSub _ _ _ hbp hpidps
        have l1 := mem_lookupA inv.ptmNodup hmem2
        rw [hM] at l1
        cases l1
        exact hbmem
      simp [hps_eq, hbM]
    have hfilter_eq : s.dev_mem_to_proxy_ids.filter
        (fun bp => decide (bp.1 ∈ M) && (bp.2.erase p.pid).isEmpty)
        = s.dev_mem_to_proxy_ids := List.filter_eq_self.mpr hfilter_all
    have hmem_final : (devRemoveMid szBuf
        { s with proxy_id_to_proxy := eraseA s.proxy_id_to_proxy p.pid,
                 proxy_id_to_dev_mems := eraseA s.proxy_id_to_dev_mems p.pid }
        p.pid M).mem_usage = 0 := by
      show s.mem_usage - ((s.dev_mem_to_proxy_ids.filter
          (fun bp => decide (bp.1 ∈ M) && (bp.2.erase p.pid).isEmpty)).map
          (fun bp => (szBuf bp.1 : Int))).sum = 0
      rw [hfilter_eq, inv.usage]
      have hsum : ((keysOf s.dev_mem_to_proxy_ids).map
          (fun b => (szBuf b : Int))).sum
          = (s.dev_mem_to_proxy_ids.map (fun bp => (szBuf bp.1 : Int))).sum := by
        unfold keysOf
        rw [List.map_map]
        rfl
      rw [hsum]
      omega
    exact hmem0 hmem_final
  simp only [ProxiesOnDevice.remove, Option.bind_eq_bind]
  rw [if_pos hc, hmr]
  simp only [Option.some_bind]
  rw [if_neg hno]

theorem devAddMid_inv (szBuf : Nat → Nat) (s : ProxiesOnDevice) (p : ProxyObject)
    (inv : DevInv szBuf s)
    (hfresh : p.pid ∉ keysOf s.proxy_id_to_dev_mems)
    (hfreshps : ∀ b ps, (b, ps) ∈ s.dev_mem_to_proxy_ids → p.pid ∉ ps) :
    DevInv szBuf (devAddMid szBuf
      { s with proxy_id_to_proxy := s.proxy_id_to_proxy ++ [(p.pid, p)] }
      p.pid p.devMems) := by
  have hNmem : ∀ b, b ∈ dedupKeep (p.devMems.filter
      (fun b => !decide (b ∈ keysOf s.dev_mem_to_proxy_ids))) []
      ↔ b ∈ p.devMems ∧ b ∉ keysOf s.dev_mem_to_proxy_ids := by
    intro b
    rw [dedupKeep_mem]
    simp [List.mem_filter]
  have hDDmem : ∀ b, b ∈ dedupKeep p.devMems [] ↔ b ∈ p.devMems := by
    intro b
    rw [dedupKeep_mem]
    simp
  have hkeysMapped : keysOf (s.dev_mem_to_proxy_ids.map
      (fun bp => (bp.1, if bp.1 ∈ p.devMems then bp.2 ++ [p.pid] else bp.2)))
      = keysOf s.dev_mem_to_proxy_ids :=
    keysOf_map_val (fun b ps => if b ∈ p.devMems then ps ++ [p.pid] else ps) _
  have h1 : keysOf (s.proxy_id_to_proxy ++ [(p.pid, p)])
      = keysOf (s.proxy_id_to_dev_mems ++ [(p.pid, dedupKeep p.devMems [])]) := by
    rw [keysOf_append, keysOf_append, inv.ppKeys]
    rfl
  have h2 : (keysOf (s.proxy_id_to_dev_mems
      ++ [(p.pid, dedupKeep p.devMems [])])).Nodup := by
    rw [keysOf_append]
    refine inv.ptmNodup.append (List.nodup_singleton _) ?_
    intro a ha hsing
    have haeq : a = p.pid := List.mem_singleton.mp hsing
    exact hfresh (haeq ▸ ha)
  have h3 : (keysOf (s.dev_mem_to_proxy_ids.map
      (fun bp => (bp.1, if bp.1 ∈ p.devMems then bp.2 ++ [p.pid] else bp.2))
      ++ (dedupKeep (p.devMems.filter
          (fun b => !decide (b ∈ keysOf s.dev_mem_to_proxy_ids))) []).map
          (fun b => (b, [p.pid])))).Nodup := by
    rw [keysOf_append, hkeysMapped, keysOf_map_key]
    refine inv.dtpNodup.append (dedupKeep_nodup _ _) ?_
    intro a ha hN
    exact ((hNmem a).mp hN).2 ha
  have h4 : ∀ q mems, (q, mems) ∈ (s.proxy_id_to_dev_mems
      ++ [(p.pid, dedupKeep p.devMems [])]) → mems.Nodup := by
    intro q mems hmem
    rcases List.mem_append.mp hmem with h | h
    · exact inv.memsNodup _ _ h
    · have heq := List.mem_singleton.mp h
      simp only [Prod.mk.injEq] at heq
      rw [heq.2]
      exact dedupKeep_nodup _ _
  have h5 : ∀ b ps, (b, ps) ∈ (s.dev_mem_to_proxy_ids.map
      (fun bp => (bp.1, if bp.1 ∈ p.devMems then bp.2 ++ [p.pid] else bp.2))
      ++ (dedupKeep (p.devMems.filter
          (fun b => !decide (b ∈ keysOf s.dev_mem_to_proxy_ids))) []).map
          (fun b => (b, [p.pid]))) → ps.Nodup := by
    intro b ps h
    rcases List.mem_append.mp h with h | h
    · rcases List.mem_map.mp h with ⟨bp, hbp, heq⟩
      obtain ⟨b0, ps0⟩ := bp
      simp only [Prod.mk.injEq] at heq
      rw [← heq.2]
      by_cases hbd : b0 ∈ p.devMems
      · rw [if_pos hbd]
        refine (inv.psNodup _ _ hbp).append (List.nodup_singleton _) ?_
        intro a ha hsg
        exact hfreshps _ _ hbp ((List.mem_singleton.mp hsg) ▸ ha)
      · rw [if_neg hbd]
        exact inv.psNodup _ _ hbp
    · rcases List.mem_map.mp h with ⟨b0, hb0, heq⟩
      simp only [Prod.mk.injEq] at heq
      rw [← heq.2]
      exact List.nodup_singleton _
  have h6 : ∀ b ps, (b, ps) ∈ (s.dev_mem_to_proxy_ids.map
      (fun bp => (bp.1, if bp.1 ∈ p.devMems then bp.2 ++ [p.pid] else bp.2))
      ++ (dedupKeep (p.devMems.filter
          (fun b => !decide (b ∈ keysOf s.dev_mem_to_proxy_ids))) []).map
          (fun b => (b, [p.pid]))) → ps ≠ [] := by
    intro b ps h
    rcases List.mem_append.mp h with h | h
    · rcases List.mem_map.mp h with ⟨bp, hbp, heq⟩
      obtain ⟨b0, ps0⟩ := bp
      simp only [Prod.mk.injEq] at heq
      rw [← heq.2]
      by_cases hbd : b0 ∈ p.devMems
      · rw [if_pos hbd]
        simp
      · rw [if_neg hbd]
        exact inv.psNonempty _ _ hbp
    · rcases List.mem_map.mp h with ⟨b0, hb0, heq⟩
      simp only [Prod.mk.injEq] at heq
      rw [← heq.2]
      simp
  have h7 : ∀ b ps x, (b, ps) ∈ (s.dev_mem_to_proxy_ids.map
      (fun bp => (bp.1, if bp.1 ∈ p.devMems then bp.2 ++ [p.pid] else bp.2))
      ++ (dedupKeep (p.devMems.filter
          (fun b => !decide (b ∈ keysOf s.dev_mem_to_proxy_ids))) []).map
          (fun b => (b, [p.pid]))) → x ∈ ps →
      ∃ mems, (x, mems) ∈ (s.proxy_id_to_dev_mems
        ++ [(p.pid, dedupKeep p.devMems [])]) ∧ b ∈ mems := by
    intro b ps x h hx
    rcases List.mem_append.mp h with h | h
    · rcases List.mem_map.mp h with ⟨bp, hbp, heq⟩
      obtain ⟨b0, ps0⟩ := bp
      simp only [Prod.mk.injEq] at heq
      obtain ⟨hb, hps⟩ := heq
      subst hb
      rw [← hps] at hx
      by_cases hbd : b0 ∈ p.devMems
      · rw [if_pos hbd] at hx
        rcases List.mem_append.mp hx with hx | hx
        · obtain ⟨mems, hm, hbm⟩ := inv.psSub _ _ _ hbp hx
          exact ⟨mems, List.mem_append_left _ hm, hbm⟩
        · have hxp : x = p.pid := List.mem_singleton.mp hx
          subst hxp
          exact ⟨dedupKeep p.devMems [],
            List.mem_append_right _ (List.mem_singleton_self _),
            (hDDmem b0).mpr hbd⟩
      · rw [if_neg hbd] at hx
        obtain ⟨mems, hm, hbm⟩ := inv.psSub _ _ _ hbp hx
        exact ⟨mems, List.mem_append_left _ hm, hbm⟩
    · rcases List.mem_map.mp h with ⟨b0, hb0N, heq⟩
      simp only [Prod.mk.injEq] at heq
      obtain ⟨hb, hps⟩ := heq
      subst hb
      rw [← hps] at hx
      have hxp : x = p.pid := List.mem_singleton.mp hx
      subst hxp
      exact ⟨dedupKeep p.devMems [],
        List.mem_append_right _ (List.mem_singleton_self _),
        (hDDmem b0).mpr ((hNmem b0).mp hb0N).1⟩
  have h8 : ∀ x mems b, (x, mems) ∈ (s.proxy_id_to_dev_mems
      ++ [(p.pid, dedupKeep p.devMems [])]) → b ∈ mems →
      ∃ ps, (b, ps) ∈ (s.dev_mem_to_proxy_ids.map
        (fun bp => (bp.1, if bp.1 ∈ p.devMems then bp.2 ++ [p.pid] else bp.2))
        ++ (dedupKeep (p.devMems.filter
            (fun b => !decide (b ∈ keysOf s.dev_mem_to_proxy_ids))) []).map
            (fun b => (b, [p.pid]))) ∧ x ∈ ps := by
    intro x mems b h hb
    rcases List.mem_append.mp h with h | h
    · obtain ⟨ps0, hps0, hxps0⟩ := inv.memsSub _ _ _ h hb
      refine ⟨(if b ∈ p.devMems then ps0 ++ [p.pid] else ps0), ?_, ?_⟩
      · exact List.mem_append_left _ (List.mem_map.mpr ⟨(b, ps0), hps0, rfl⟩)
      · by_cases hbd : b ∈ p.devMems
        · rw [if_pos hbd]
          exact List.mem_append_left _ hxps0
        · rw [if_neg hbd]
          exact hxps0
    · have heq := List.mem_singleton.mp h
      simp only [Prod.mk.injEq] at heq
      obtain ⟨hx, hm⟩ := heq
      subst hx
      rw [hm] at hb
      have hbD : b ∈ p.devMems := (hDDmem b).mp hb
      by_cases hbk : b ∈ keysOf s.dev_mem_to_proxy_ids
      · obtain ⟨ps0, hps0⟩ := mem_keysOf_iff.mp hbk
        refine ⟨ps0 ++ [p.pid], ?_,
          List.mem_append_right _ (List.mem_singleton_self _)⟩
        refine List.mem_append_left _ (List.mem_map.mpr ⟨(b, ps0), hps0, ?_⟩)
        simp [hbD]
      · refine ⟨[p.pid], ?_, List.mem_singleton_self _⟩
        refine List.mem_append_right _ (List.mem_map.mpr ⟨b, ?_, rfl⟩)
        exact (hNmem b).mpr ⟨hbD, hbk⟩
  have h9 : s.mem_usage + ((dedupKeep (p.devMems.filter
        (fun b => !decide (b ∈ keysOf s.dev_mem_to_proxy_ids))) []).map
        (fun b => (szBuf b : Int))).sum
      = ((keysOf (s.dev_mem_to_proxy_ids.map
          (fun bp => (bp.1, if bp.1 ∈ p.devMems then bp.2 ++ [p.pid] else bp.2))
          ++ (dedupKeep (p.devMems.filter
              (fun b => !decide (b ∈ keysOf s.dev_mem_to_proxy_ids))) []).map
              (fun b => (b, [p.pid])))).map (fun b => (szBuf b : Int))).sum := by
    rw [keysOf_append, hkeysMapped, keysOf_map_key, List.map_append,
      List.sum_append, inv.usage]
  have h10 : ∀ x q, (x, q) ∈ (s.proxy_id_to_proxy ++ [(p.pid, p)]) →
      ∃ mems, (x, mems) ∈ (s.proxy_id_to_dev_mems
        ++ [(p.pid, dedupKeep p.devMems [])]) ∧ ∀ b, b ∈ mems ↔ b ∈ q.devMems := by
    intro x q h
    rcases List.mem_append.mp h with h | h
    · obtain ⟨mems, hm, hiff⟩ := inv.proxyMems _ _ h
      exact ⟨mems, List.mem_append_left _ hm, hiff⟩
    · have heq := List.mem_singleton.mp h
      simp only [Prod.mk.injEq] at heq
      obtain ⟨hx, hq⟩ := heq
      subst hx
      refine ⟨dedupKeep p.devMems [],
        List.mem_append_right _ (List.mem_singleton_self _), ?_⟩
      rw [hq]
      exact fun b => hDDmem b
  exact ⟨h1, h2, h3, h4, h5, h6, h7, h8, h9, h10⟩

theorem dev_add_inv (szBuf : Nat → Nat) (s s2 : ProxiesOnDevice)
    (p : ProxyObject) (inv : DevInv szBuf s)
    (h : ProxiesOnDevice.add szBuf s p = some s2) : DevInv szBuf s2 := by
  have hc : s.contains_proxy_id p.pid = false := by
    by_cases hb : s.contains_proxy_id p.pid = true
    · unfold ProxiesOnDevice.add at h
      rw [if_pos hb] at h
      exact Option.noConfusion h
    · exact Bool.eq_false_iff.mpr hb
  have hfresh : p.pid ∉ keysOf s.proxy_id_to_dev_mems := by
    rw [← inv.ppKeys]
    intro hmem
    have hsome := (lookupA_isSome_iff s.proxy_id_to_proxy p.pid).mpr hmem
    rw [show s.contains_proxy_id p.pid
        = (lookupA s.proxy_id_to_proxy p.pid).isSome from rfl] at hc
    rw [hc] at hsome
    exact Bool.false_ne_true hsome
  have hfreshps : ∀ b ps, (b, ps) ∈ s.dev_mem_to_proxy_ids → p.pid ∉ ps := by
    intro b ps hbp hin
    obtain ⟨mems, hm, _⟩ := inv.psSub _ _ _ hbp hin
    exact hfresh (mem_keysOf hm)
  rw [dev_add_spec szBuf s p hc hfresh hfreshps inv.psNonempty inv.dtpNodup] at h
  injection h with h2
  rw [← h2]
  exact devAddMid_inv szBuf s p inv hfresh hfreshps

theorem keysOf_filterMap_dre_sublist (pid : Nat) (M : List Nat) :
    ∀ l : List (Nat × List Nat),
    (keysOf (l.filterMap (devRemoveEntry pid M))).Sublist (keysOf l) := by
  intro l
  induction l with
  | nil => simp [keysOf_nil]
  | cons bp l ih =>
    rw [List.filterMap_cons]
    cases hdre : devRemoveEntry pid M bp with
    | none =>
      rw [keysOf_cons]
      exact ih.cons _
    | some q =>
      rw [keysOf_cons, keysOf_cons, (dre_fst hdre).1]
      exact ih.cons₂ _

theorem dre_some_nonempty {pid : Nat} {M : List Nat} {bp w : Nat × List Nat}
    (h : devRemoveEntry pid M bp = some w) (hne : bp.2 ≠ []) : w.2 ≠ [] := by
  unfold devRemoveEntry at h
  by_cases hbM : bp.1 ∈ M
  · rw [if_pos hbM] at h
    by_cases hemp : bp.2.erase pid = []
    · rw [if_pos hemp] at h
      exact Option.noConfusion h
    · rw [if_neg hemp] at h
      injection h with h2
      rw [← h2]
      exact hemp
  · rw [if_neg hbM] at h
    injection h with h2
    rw [← h2]
    exact hne

theorem dre_sum (szBuf : Nat → Nat) (pid : Nat) (M : List Nat) :
    ∀ l : List (Nat × List Nat),
    ((keysOf (l.filterMap (devRemoveEntry pid M))).map
        (fun b => (szBuf b : Int))).sum
      + ((l.filter (fun bp => decide (bp.1 ∈ M) && (bp.2.erase pid).isEmpty)).map
          (fun bp => (szBuf bp.1 : Int))).sum
      = ((keysOf l).map (fun b => (szBuf b : Int))).sum := by
  intro l
  induction l with
  | nil => simp [keysOf_nil]
  | cons bp l ih =>
    by_cases hbM : bp.1 ∈ M
    · by_cases hemp : bp.2.erase pid = []
      · have hdre : devRemoveEntry pid M bp = none := by
          simp [devRemoveEntry, hbM, hemp]
        have hpred : (decide (bp.1 ∈ M) && (bp.2.erase pid).isEmpty) = true := by
          simp [hbM, hemp]
        simp only [List.filterMap_cons, hdre, List.filter_cons, hpred, if_true,
          keysOf_cons, List.map_cons, List.sum_cons]
        omega
      · have hdre : devRemoveEntry pid M bp
            = some (bp.1, bp.2.erase pid) := by
          simp [devRemoveEntry, hbM, hemp]
        have hpred : (decide (bp.1 ∈ M) && (bp.2.erase pid).isEmpty) = false := by
          simp [hbM, List.isEmpty_iff, hemp]
        simp only [List.filterMap_cons, hdre, List.filter_cons, hpred,
          Bool.false_eq_true, if_false, keysOf_cons, List.map_cons, List.sum_cons]
        omega
    · have hdre : devRemoveEntry pid M bp = some bp := by
        simp [devRemoveEntry, hbM]
      have hpred : (decide (bp.1 ∈ M) && (bp.2.erase pid).isEmpty) = false := by
        simp [hbM]
      simp only [List.filterMap_cons, hdre, List.filter_cons, hpred,
        Bool.false_eq_true, if_false, keysOf_cons, List.map_cons, List.sum_cons]
      omega

theorem devRemoveMid_inv (szBuf : Nat → Nat) (s : ProxiesOnDevice) (pid : Nat)
    (M : List Nat) (inv : DevInv szBuf s)
    (hM : lookupA s.proxy_id_to_dev_mems pid = some M) :
    DevInv szBuf (devRemoveMid szBuf
      { s with proxy_id_to_proxy := eraseA s.proxy_id_to_proxy pid,
               proxy_id_to_dev_mems := eraseA s.proxy_id_to_dev_mems pid }
      pid M) := by
  have hppNodup : (keysOf s.proxy_id_to_proxy).Nodup := by
    rw [inv.ppKeys]
    exact inv.ptmNodup
  have hx_ne_ptm : ∀ x mems, (x, mems) ∈ eraseA s.proxy_id_to_dev_mems pid →
      x ≠ pid ∧ (x, mems) ∈ s.proxy_id_to_dev_mems := by
    intro x mems h
    refine ⟨?_, (eraseA_sublist _ _).subset h⟩
    intro hx
    subst hx
    have hk := mem_keysOf h
    rw [keysOf_eraseA] at hk
    exact (inv.ptmNodup.mem_erase_iff.mp hk).1 rfl
  have hx_ne_pp : ∀ x q, (x, q) ∈ eraseA s.proxy_id_to_proxy pid →
      x ≠ pid ∧ (x, q) ∈ s.proxy_id_to_proxy := by
    intro x q h
    refine ⟨?_, (eraseA_sublist _ _).subset h⟩
    intro hx
    subst hx
    have hk := mem_keysOf h
    rw [keysOf_eraseA] at hk
    exact (hppNodup.mem_erase_iff.mp hk).1 rfl
  have h1 : keysOf (eraseA s.proxy_id_to_proxy pid)
      = keysOf (eraseA s.proxy_id_to_dev_mems pid) := by
    rw [keysOf_eraseA, keysOf_eraseA, inv.ppKeys]
  have h2 : (keysOf (eraseA s.proxy_id_to_dev_mems pid)).Nodup := by
    rw [keysOf_eraseA]
    exact inv.ptmNodup.erase _
  have h3 : (keysOf (s.dev_mem_to_proxy_ids.filterMap
      (devRemoveEntry pid M))).Nodup :=
    List.Nodup.sublist (keysOf_filterMap_dre_sublist pid M _) inv.dtpNodup
  have h4 : ∀ q mems, (q, mems) ∈ eraseA s.proxy_id_to_dev_mems pid →
      mems.Nodup := by
    intro q mems h
    exact inv.memsNodup _ _ ((eraseA_sublist _ _).subset h)
  have h5 : ∀ b ps, (b, ps) ∈ s.dev_mem_to_proxy_ids.filterMap
      (devRemoveEntry pid M) → ps.Nodup := by
    intro b ps h
    obtain ⟨bp, hbp, hdre⟩ := List.mem_filterMap.mp h
    rcases (dre_fst hdre).2 with h2 | h2
    · rw [show ps = bp.2 from h2]
      exact inv.psNodup bp.1 bp.2 hbp
    · rw [show ps = bp.2.erase pid from h2]
      exact (inv.psNodup bp.1 bp.2 hbp).erase _
  have h6 : ∀ b ps, (b, ps) ∈ s.dev_mem_to_proxy_ids.filterMap
      (devRemoveEntry pid M) → ps ≠ [] := by
    intro b ps h
    obtain ⟨bp, hbp, hdre⟩ := List.mem_filterMap.mp h
    exact dre_some_nonempty hdre (inv.psNonempty bp.1 bp.2 hbp)
  have h7 : ∀ b ps x, (b, ps) ∈ s.dev_mem_to_proxy_ids.filterMap
      (devRemoveEntry pid M) → x ∈ ps →
      ∃ mems, (x, mems) ∈ eraseA s.proxy_id_to_dev_mems pid ∧ b ∈ mems := by
    intro b ps x h hx
    obtain ⟨bp, hbp, hdre⟩ := List.mem_filterMap.mp h
    obtain ⟨b0, ps0⟩ := bp
    unfold devRemoveEntry at hdre
    by_cases hbM : b0 ∈ M
    · rw [if_pos hbM] at hdre
      by_cases hemp : ps0.erase pid = []
      · rw [if_pos hemp] at hdre
        exact Option.noConfusion hdre
      · rw [if_neg hemp] at hdre
        injection hdre with h2
        simp only [Prod.mk.injEq] at h2
        obtain ⟨hb, hps⟩ := h2
        rw [← hps] at hx
        have hxne : x ≠ pid := ((inv.psNodup _ _ hbp).mem_erase_iff.mp hx).1
        have hx0 : x ∈ ps0 := ((inv.psNodup _ _ hbp).mem_erase_iff.mp hx).2
        obtain ⟨mems, hmem, hbm⟩ := inv.psSub _ _ _ hbp hx0
        exact ⟨mems, mem_eraseA_of_ne hxne hmem, hb ▸ hbm⟩
    · rw [if_neg hbM] at hdre
      injection hdre with h2
      simp only [Prod.mk.injEq] at h2
      obtain ⟨hb, hps⟩ := h2
      rw [← hps] at hx
      have hxne : x ≠ pid := by
        intro hxp
        subst hxp
        obtain ⟨mems, hmem, hbm⟩ := inv.psSub _ _ _ hbp hx
        have l1 := mem_lookupA inv.ptmNodup hmem
        rw [hM] at l1
        injection l1 with l2
        rw [← l2] at hbm
        exact hbM hbm
      obtain ⟨mems, hmem, hbm⟩ := inv.psSub _ _ _ hbp hx
      exact ⟨mems, mem_eraseA_of_ne hxne hmem, hb ▸ hbm⟩
  have h8 : ∀ x mems b, (x, mems) ∈ eraseA s.proxy_id_to_dev_mems pid →
      b ∈ mems → ∃ ps, (b, ps) ∈ s.dev_mem_to_proxy_ids.filterMap
        (devRemoveEntry pid M) ∧ x ∈ ps := by
    intro x mems b h hb
    obtain ⟨hxne, hmem⟩ := hx_ne_ptm x mems h
    obtain ⟨ps0, hps0, hxps0⟩ := inv.memsSub _ _ _ hmem hb
    by_cases hbM : b ∈ M
    · have hxe : x ∈ ps0.erase pid := (List.mem_erase_of_ne hxne).mpr hxps0
      have hemp : ps0.erase pid ≠ [] := List.ne_nil_of_mem hxe
      refine ⟨ps0.erase pid, ?_, hxe⟩
      refine List.mem_filterMap.mpr ⟨(b, ps0), hps0, ?_⟩
      simp [devRemoveEntry, hbM, hemp]
    · refine ⟨ps0, ?_, hxps0⟩
      refine List.mem_filterMap.mpr ⟨(b, ps0), hps0, ?_⟩
      simp [devRemoveEntry, hbM]
  have h9 : s.mem_usage - ((s.dev_mem_to_proxy_ids.filter
        (fun bp => decide (bp.1 ∈ M) && (bp.2.erase pid).isEmpty)).map
        (fun bp => (szBuf bp.1 : Int))).sum
      = ((keysOf (s.dev_mem_to_proxy_ids.filterMap
          (devRemoveEntry pid M))).map (fun b => (szBuf b : Int))).sum := by
    have hs := dre_sum szBuf pid M s.dev_mem_to_proxy_ids
    rw [inv.usage]
    omega
  have h10 : ∀ x q, (x, q) ∈ eraseA s.proxy_id_to_proxy pid →
      ∃ mems, (x, mems) ∈ eraseA s.proxy_id_to_dev_mems pid ∧
        ∀ b, b ∈ mems ↔ b ∈ q.devMems := by
    intro x q h
    obtain ⟨hxne, hmem⟩ := hx_ne_pp x q h
    obtain ⟨mems, hm, hiff⟩ := inv.proxyMems _ _ hmem
    exact ⟨mems, mem_eraseA_of_ne hxne hm, hiff⟩
  exact ⟨h1, h2, h3, h4, h5, h6, h7, h8, h9, h10⟩

theorem dev_remove_inv (szBuf : Nat → Nat) (s s2 : ProxiesOnDevice)
    (p : ProxyObject) (w : Bool) (inv : DevInv szBuf s)
    (h : ProxiesOnDevice.remove szBuf s p = some (s2, w)) : DevInv szBuf s2 := by
  have hc : s.contains_proxy_id p.pid = true := by
    by_contra hb
    simp only [ProxiesOnDevice.remove, Option.bind_eq_bind] at h
    rw [if_neg hb] at h
    exact Option.noConfusion h
  obtain ⟨M, hM, hspec⟩ := dev_remove_spec szBuf s p inv hc
  rw [hspec] at h
  injection h with h2
  simp only [Prod.mk.injEq] at h2
  rw [← h2.1]
  exact devRemoveMid_inv szBuf s p.pid M inv hM

theorem devInv_init (szBuf : Nat → Nat) : DevInv szBuf ProxiesOnDevice.init := by
  refine ⟨rfl, List.nodup_nil, List.nodup_nil, ?_, ?_, ?_, ?_, ?_, rfl, ?_⟩
  · intro q mems h
    simp [ProxiesOnDevice.init] at h
  · intro b ps h
    simp [ProxiesOnDevice.init] at h
  · intro b ps h
    simp [ProxiesOnDevice.init] at h
  · intro b ps q h
    simp [ProxiesOnDevice.init] at h
  · intro q mems b h
    simp [ProxiesOnDevice.init] at h
  · intro q p h
    simp [ProxiesOnDevice.init] at h

theorem runDevOps_inv (szBuf : Nat → Nat) :
    ∀ (ops : List DevOp) (s s2 : ProxiesOnDevice), DevInv szBuf s →
    runDevOps szBuf s ops = some s2 → DevInv szBuf s2 := by
  intro ops
  induction ops with
  | nil =>
    intro s s2 inv h
    injection h with h2
    rw [← h2]
    exact inv
  | cons op rest ih =>
    intro s s2 inv h
    cases op with
    | add p =>
      simp only [runDevOps, Option.bind_eq_bind] at h
      cases hadd : ProxiesOnDevice.add szBuf s p with
      | none =>
        rw [hadd] at h
        exact Option.noConfusion h
      | some s1 =>
        rw [hadd] at h
        simp only [Option.some_bind] at h
        exact ih s1 s2 (dev_add_inv szBuf s s1 p inv hadd) h
    | remove p =>
      simp only [runDevOps, Option.bind_eq_bind] at h
      cases hrem : ProxiesOnDevice.remove szBuf s p with
      | none =>
        rw [hrem] at h
        exact Option.noConfusion h
      | some r =>
        rw [hrem] at h
        simp only [Option.some_bind] at h
        exact ih r.1 s2 (dev_remove_inv szBuf s r.1 p r.2 inv
          (by rw [hrem])) h

theorem devInv_buffer_tracked (szBuf : Nat → Nat) (s : ProxiesOnDevice)
    (inv : DevInv szBuf s) (b : Nat) :
    b ∈ keysOf s.dev_mem_to_proxy_ids ↔
      ∃ q, q ∈ s.proxy_id_to_proxy.map Prod.snd ∧ b ∈ q.devMems := by
  constructor
  · intro hb
    obtain ⟨ps, hps⟩ := mem_keysOf_iff.mp hb
    have hne := inv.psNonempty _ _ hps
    obtain ⟨x, hx⟩ := List.exists_mem_of_ne_nil ps hne
    obtain ⟨mems, hmem, hbm⟩ := inv.psSub _ _ _ hps hx
    have hxpp : x ∈ keysOf s.proxy_id_to_proxy := by
      rw [inv.ppKeys]
      exact mem_keysOf hmem
    obtain ⟨q, hq⟩ := mem_keysOf_iff.mp hxpp
    obtain ⟨mems2, hmem2, hiff⟩ := inv.proxyMems _ _ hq
    have l1 := mem_lookupA inv.ptmNodup hmem
    have l2 := mem_lookupA inv.ptmNodup hmem2
    rw [l1] at l2
    injection l2 with l3
    exact ⟨q, List.mem_map_of_mem Prod.snd hq, (hiff b).mp (l3 ▸ hbm)⟩
  · rintro ⟨q, hq, hbq⟩
    obtain ⟨kv, hkv, hk⟩ := List.mem_map.mp hq
    obtain ⟨x, q0⟩ := kv
    obtain ⟨mems, hmem, hiff⟩ := inv.proxyMems _ _ hkv
    have hbmems : b ∈ mems := by
      refine (hiff b).mpr ?_
      rw [show q0 = q from hk]
      exact hbq
    obtain ⟨ps, hps, _⟩ := inv.memsSub _ _ _ hmem hbmems
    exact mem_keysOf hps

theorem remove_filter_last (szBuf : Nat → Nat) (s : ProxiesOnDevice)
    (p : ProxyObject) (inv : DevInv szBuf s) (M : List Nat)
    (hM : lookupA s.proxy_id_to_dev_mems p.pid = some M) :
    s.dev_mem_to_proxy_ids.filter
        (fun bp => decide (bp.1 ∈ M) && (bp.2.erase p.pid).isEmpty)
      = s.dev_mem_to_proxy_ids.filter (fun bp => decide (bp.2 = [p.pid])) := by
  apply List.filter_congr
  intro bp hbp
  by_cases hlast : bp.2 = [p.pid]
  · have hpid : p.pid ∈ bp.2 := by
      rw [hlast]
      exact List.mem_singleton_self _
    obtain ⟨mems, hmem, hbm⟩ := inv.psSub bp.1 bp.2 p.pid hbp hpid
    have l1 := mem_lookupA inv.ptmNodup hmem
    rw [hM] at l1
    injection l1 with l3
    rw [← l3] at hbm
    simp [hlast, hbm]
  · have herase : bp.2.erase p.pid ≠ [] := by
      intro he
      rcases erase_eq_nil he with h0 | h0
      · exact inv.psNonempty _ _ hbp h0
      · exact hlast h0
    simp [hlast, List.isEmpty_iff, herase]

/-- C1: Alias-safe device tally.  In every device registry state reachable by
a sequence of add/remove operations from the empty registry: (a) the tally
equals the sum of the externally reported sizes over the distinct device
buffers referenced by tracked proxies, each counted exactly once (the
buffer-to-proxies map holds exactly one entry per such buffer); (b) a
successful add of a proxy increases the tally by exactly the sizes of its
distinct buffers not already referenced by a tracked proxy; (c) a successful
remove of a proxy decreases the tally by exactly the sizes of the buffers for
which it was the last (sole) referencing proxy; (d) for two proxies sharing
one buffer of size S, the tally is S while either is tracked and 0 after
both are removed, with no warning raised. -/
theorem device_tally_alias_safe (szBuf : Nat → Nat) (ops : List DevOp)
    (s : ProxiesOnDevice)
    (hrun : runDevOps szBuf ProxiesOnDevice.init ops = some s) :
    ((keysOf s.dev_mem_to_proxy_ids).Nodup ∧
      s.mem_usage = ((keysOf s.dev_mem_to_proxy_ids).map
        (fun b => (szBuf b : Int))).sum ∧
      (∀ b, b ∈ keysOf s.dev_mem_to_proxy_ids ↔
        ∃ q, q ∈ s.proxy_id_to_proxy.map Prod.snd ∧ b ∈ q.devMems))
    ∧ (∀ p s2, ProxiesOnDevice.add szBuf s p = some s2 →
        s2.mem_usage = s.mem_usage
          + ((newDevBufs s p).map (fun b => (szBuf b : Int))).sum ∧
        (∀ b, b ∈ newDevBufs s p ↔ b ∈ p.devMems ∧
          ¬ ∃ q, q ∈ s.proxy_id_to_proxy.map Prod.snd ∧ b ∈ q.devMems))
    ∧ (∀ p s2 w, ProxiesOnDevice.remove szBuf s p = some (s2, w) →
        s2.mem_usage = s.mem_usage
          - ((s.dev_mem_to_proxy_ids.filter
              (fun bp => decide (bp.2 = [p.pid]))).map
              (fun bp => (szBuf bp.1 : Int))).sum)
    ∧ (∀ S : Nat, ∃ sA sB sC sD : ProxiesOnDevice,
        ProxiesOnDevice.add (fun _ => S) ProxiesOnDevice.init
            ⟨1, [0], 0, none⟩ = some sA ∧ sA.mem_usage = (S : Int) ∧
        ProxiesOnDevice.add (fun _ => S) sA ⟨2, [0], 0, none⟩ = some sB ∧
        sB.mem_usage = (S : Int) ∧
        ProxiesOnDevice.remove (fun _ => S) sB ⟨1, [0], 0, none⟩
            = some (sC, false) ∧ sC.mem_usage = (S : Int) ∧
        ProxiesOnDevice.remove (fun _ => S) sC ⟨2, [0], 0, none⟩
            = some (sD, false) ∧ sD.mem_usage = 0) := by
  have inv : DevInv szBuf s :=
    runDevOps_inv szBuf ops ProxiesOnDevice.init s (devInv_init szBuf) hrun
  refine ⟨⟨inv.dtpNodup, inv.usage, fun b => devInv_buffer_tracked szBuf s inv b⟩,
    ?_, ?_, ?_⟩
  · intro p s2 h
    have hc : s.contains_proxy_id p.pid = false := by
      by_cases hb : s.contains_proxy_id p.pid = true
      · unfold ProxiesOnDevice.add at h
        rw [if_pos hb] at h
        exact Option.noConfusion h
      · exact Bool.eq_false_iff.mpr hb
    have hfresh : p.pid ∉ keysOf s.proxy_id_to_dev_mems := by
      rw [← inv.ppKeys]
      intro hmem
      have hsome := (lookupA_isSome_iff s.proxy_id_to_proxy p.pid).mpr hmem
      rw [show s.contains_proxy_id p.pid
          = (lookupA s.proxy_id_to_proxy p.pid).isSome from rfl] at hc
      rw [hc] at hsome
      exact Bool.false_ne_true hsome
    have hfreshps : ∀ b ps, (b, ps) ∈ s.dev_mem_to_proxy_ids → p.pid ∉ ps := by
      intro b ps hbp hin
      obtain ⟨mems, hm, _⟩ := inv.psSub _ _ _ hbp hin
      exact hfresh (mem_keysOf hm)
    rw [dev_add_spec szBuf s p hc hfresh hfreshps inv.psNonempty inv.dtpNodup] at h
    injection h with h2
    constructor
    · rw [← h2]
      rfl
    · intro b
      have hnd : b ∈ newDevBufs s p ↔ b ∈ p.devMems ∧
          b ∉ keysOf s.dev_mem_to_proxy_ids := by
        unfold newDevBufs
        rw [dedupKeep_mem]
        simp [List.mem_filter]
      rw [hnd, devInv_buffer_tracked szBuf s inv b]
  · intro p s2 w h
    have hc : s.contains_proxy_id p.pid = true := by
      by_contra hb
      simp only [ProxiesOnDevice.remove, Option.bind_eq_bind] at h
      rw [if_neg hb] at h
      exact Option.noConfusion h
    obtain ⟨M, hM, hspec⟩ := dev_remove_spec szBuf s p inv hc
    rw [hspec] at h
    injection h with h2
    simp only [Prod.mk.injEq] at h2
    rw [← h2.1]
    show s.mem_usage - ((s.dev_mem_to_proxy_ids.filter
        (fun bp => decide (bp.1 ∈ M) && (bp.2.erase p.pid).isEmpty)).map
        (fun bp => (szBuf bp.1 : Int))).sum = _
    rw [remove_filter_last szBuf s p inv M hM]
  · intro S
    refine ⟨⟨[(1, ⟨1, [0], 0, none⟩)], 0 + (S : Int), [(1, [0])], [(0, [1])]⟩,
      ⟨[(1, ⟨1, [0], 0, none⟩), (2, ⟨2, [0], 0, none⟩)], 0 + (S : Int),
        [(1, [0]), (2, [0])], [(0, [1, 2])]⟩,
      ⟨[(2, ⟨2, [0], 0, none⟩)], 0 + (S : Int), [(2, [0])], [(0, [2])]⟩,
      ⟨[], 0 + (S : Int) - (S : Int), [], []⟩, ?_, ?_, ?_, ?_, ?_, ?_, ?_, ?_⟩
    · rfl
    · show (0 : Int) + (S : Int) = (S : Int)
      omega
    · rfl
    · show (0 : Int) + (S : Int) = (S : Int)
      omega
    · rfl
    · show (0 : Int) + (S : Int) = (S : Int)
      omega
    · have key : ProxiesOnDevice.remove (fun _ => S)
          ⟨[(2, ⟨2, [0], 0, none⟩)], 0 + (S : Int), [(2, [0])], [(0, [2])]⟩
          ⟨2, [0], 0, none⟩
          = (if (0 : Nat) = 0 ∧ (0 + (S : Int) - (S : Int)) ≠ 0
             then some ((⟨[], 0, [], []⟩ : ProxiesOnDevice), true)
             else some ((⟨[], 0 + (S : Int) - (S : Int), [], []⟩
               : ProxiesOnDevice), false)) := rfl
      rw [key, if_neg (fun hco => hco.2 (by omega))]
    · show (0 : Int) + (S : Int) - (S : Int) = 0
      omega

theorem device_tally_alias_safe_witness :
    runDevOps (fun _ => 7) ProxiesOnDevice.init [DevOp.add ⟨1, [0], 0, none⟩]
        = some ⟨[(1, ⟨1, [0], 0, none⟩)], 7, [(1, [0])], [(0, [1])]⟩ ∧
      (keysOf ((⟨[(1, ⟨1, [0], 0, none⟩)], 7, [(1, [0])], [(0, [1])]⟩
          : ProxiesOnDevice)).dev_mem_to_proxy_ids).Nodup :=
  ⟨rfl, (device_tally_alias_safe (fun _ => 7) [DevOp.add ⟨1, [0], 0, none⟩]
      ⟨[(1, ⟨1, [0], 0, none⟩)], 7, [(1, [0])], [(0, [1])]⟩ rfl).1.1⟩
